import Mathlib

/-!
Verification of the vibe-snake-game core against its specification.

This file gives a shallow embedding, in Lean 4, of the TypeScript classes
`Snake`, `SeededRandom`, `Food`, `ReplayPlayer`, `ReplayStorage` and
`AutoPilot` of the repository, together with theorems settling the claims
about them.  Modelling conventions:

* grid coordinates and JavaScript numbers holding integers are `Int`
  (or `Nat` for non-negative counters);
* the Mulberry32 generator state is a `Nat` mirroring the JS number
  (the `+=` is exact integer addition below 2^53; all bitwise operators
  coerce to 32 bits, which is modelled by `% 2^32` at exactly the points
  where JavaScript coerces);
* `random()` returns a float `t / 2^32` with `t` a 32-bit integer; the
  model returns the integer numerator `t`, and `randomInt` computes the
  floor of `t * max / 2^32` in exact (real) arithmetic;
* stateful methods become functions from the receiver to (result, updated
  receiver); callback invocations are returned as explicit output values;
* the unbounded `while` loops of `Food.respawn` and `AutoPilot.bfs` take
  an explicit fuel argument; for BFS the fuel `W*H + 1` is provably never
  exhausted before the queue empties, so the embedded function agrees with
  the source loop;
* `JSON.stringify` / `JSON.parse`, `encodeURIComponent` /
  `decodeURIComponent` and `btoa` / `atob` are modelled over `List Nat`
  (character / byte codes).  The JSON model covers null, booleans, integer
  numbers, escape-free strings, arrays and objects - exactly the fragment
  the replay serialization exercises; fractional numbers and string
  escapes are rejected by the modelled parser.
-/

structure Point where
  x : Int
  y : Int
deriving DecidableEq, Repr

def Point.neg (p : Point) : Point := { x := -p.x, y := -p.y }

/-- The `Snake` class state: `segments` is head-first. -/
structure Snake where
  segments : List Point
  direction : Point
  nextDirection : Point
  gridWidth : Int
  gridHeight : Int
  growing : Bool
deriving DecidableEq, Repr

/-- The initial snake built by the `Snake` constructor. -/
def Snake.new (gridWidth gridHeight : Int) : Snake where
  segments := [{ x := 5, y := 5 }, { x := 4, y := 5 }, { x := 3, y := 5 }]
  direction := { x := 1, y := 0 }
  nextDirection := { x := 1, y := 0 }
  gridWidth := gridWidth
  gridHeight := gridHeight
  growing := false

/-- `Snake.setDirection(dir)`: rejects iff `direction.x + dir.x === 0 &&
direction.y + dir.y === 0`; otherwise stores `dir` as `nextDirection`.
Returns the boolean result together with the updated snake. -/
def Snake.setDirection (s : Snake) (dir : Point) : Bool × Snake :=
  if s.direction.x + dir.x = 0 ∧ s.direction.y + dir.y = 0 then (false, s)
  else (true, { s with nextDirection := dir })

/-- `Snake.move()`: promotes `nextDirection` to `direction`, prepends the
new head, and pops the tail unless `growing` is set. -/
def Snake.move (s : Snake) : Snake :=
  let direction := s.nextDirection
  let head := s.segments.headD { x := 0, y := 0 }
  let newHead : Point := { x := head.x + direction.x, y := head.y + direction.y }
  let segments := newHead :: s.segments
  if !s.growing then
    { s with direction := direction, segments := segments.dropLast }
  else
    { s with direction := direction, segments := segments, growing := false }

/-- The `head` getter (`segments[0]`). -/
def Snake.head (s : Snake) : Point := s.segments.headD { x := 0, y := 0 }

/-- The Mulberry32 seeded generator.  `state` is the JS number `this.state`;
it only ever grows by `0x6D2B79F5` per draw, so integer addition is exact. -/
structure SeededRandom where
  state : Nat
deriving DecidableEq, Repr

/-- One Mulberry32 draw.  Returns the 32-bit numerator `t` of the produced
float `t / 2^32`, together with the updated generator. -/
def SeededRandom.random (g : SeededRandom) : Nat × SeededRandom :=
  let state := g.state + 0x6D2B79F5
  let t0 := state % 4294967296
  let t1 := (Nat.xor t0 (t0 >>> 15) * (t0 ||| 1)) % 4294967296
  let t2 := Nat.xor t1 ((t1 + (Nat.xor t1 (t1 >>> 7) * (t1 ||| 61)) % 4294967296) % 4294967296)
  (Nat.xor t2 (t2 >>> 14), { state := state })

/-- `randomInt(max)` = `Math.floor(random() * max)` in exact arithmetic. -/
def SeededRandom.randomInt (g : SeededRandom) (max : Nat) : Nat × SeededRandom :=
  let r := g.random
  (r.1 * max / 4294967296, r.2)

/-- The sequence of the first `n` draws of `random()`. -/
def SeededRandom.draws (g : SeededRandom) : Nat → List Nat
  | 0 => []
  | n + 1 =>
    let r := g.random
    r.1 :: r.2.draws n

/-- The sequence of `randomInt` draws for a given list of bounds. -/
def SeededRandom.intDraws (g : SeededRandom) : List Nat → List Nat
  | [] => []
  | m :: ms =>
    let r := g.randomInt m
    r.1 :: r.2.intDraws ms

/-- The `Food` class state.  `rng = none` is the `Math.random` path. -/
structure Food where
  x : Int
  y : Int
  gridWidth : Int
  gridHeight : Int
  rng : Option SeededRandom
deriving DecidableEq, Repr

/-- `Food.randomize()` on the seeded path: two `randomInt` draws. -/
def Food.randomize (f : Food) : Food :=
  match f.rng with
  | some rng =>
    let rx := rng.randomInt f.gridWidth.toNat
    let ry := rx.2.randomInt f.gridHeight.toNat
    { f with x := rx.1, y := ry.1, rng := some ry.2 }
  | none => f

/-- The body of `Food.respawn`, parameterized by the candidate generator
`rand` (`Food.randomize` on the seeded path; an arbitrary oracle models the
non-seeded `Math.random` path) and by fuel for the unbounded `while` loop. -/
def Food.respawnGo (rand : Food → Food) (snakeSegments obstaclePositions : List Point) :
    Nat → Food → Option Food
  | 0, _ => none
  | fuel + 1, f =>
    let f' := rand f
    let overlapsSnake := snakeSegments.any fun segment =>
      segment.x == f'.x && segment.y == f'.y
    let overlapsObstacle := obstaclePositions.any fun obs =>
      obs.x == f'.x && obs.y == f'.y
    if !overlapsSnake && !overlapsObstacle then some f'
    else Food.respawnGo rand snakeSegments obstaclePositions fuel f'

/-- `Food.respawn(snakeSegments, obstaclePositions)` with the seeded
`randomize` as candidate generator. -/
def Food.respawn (fuel : Nat) (f : Food) (snakeSegments obstaclePositions : List Point) :
    Option Food :=
  Food.respawnGo Food.randomize snakeSegments obstaclePositions fuel f

/-- Canonical direction names of `ReplayInput.direction`. -/
inductive Dir where
  | up
  | down
  | left
  | right
deriving DecidableEq, Repr

/-- The `DIRECTION_VECTORS` table. -/
def Dir.vec : Dir → Point
  | .up => { x := 0, y := -1 }
  | .down => { x := 0, y := 1 }
  | .left => { x := -1, y := 0 }
  | .right => { x := 1, y := 0 }

/-- A recorded input event. -/
structure ReplayInput where
  frame : Nat
  direction : Dir
deriving DecidableEq, Repr

/-- The `ReplayData` record. -/
structure ReplayData where
  version : Int
  seed : Int
  gridWidth : Int
  gridHeight : Int
  initialSnake : List Point
  initialDirection : Point
  inputs : List ReplayInput
  finalScore : Int
  timestamp : Int
  speedPercent : Int
deriving DecidableEq, Repr

/-- The `ReplayPlayer` state.  The playback-speed field and the two stored
callbacks are omitted: the speed is never read by the embedded operations,
and callback invocations are modelled as explicit return values. -/
structure ReplayPlayer where
  replayData : Option ReplayData
  currentFrame : Nat
  inputIndex : Nat
  isPlaying : Bool
  isPaused : Bool
deriving DecidableEq, Repr

/-- `loadReplay(data)`. -/
def ReplayPlayer.loadReplay (data : ReplayData) : ReplayPlayer where
  replayData := some data
  currentFrame := 0
  inputIndex := 0
  isPlaying := false
  isPaused := false

/-- `startPlayback(...)`: resets cursors and starts playing. -/
def ReplayPlayer.startPlayback (p : ReplayPlayer) : ReplayPlayer :=
  match p.replayData with
  | none => p
  | some _ => { p with currentFrame := 0, inputIndex := 0, isPlaying := true, isPaused := false }

/-- `processFrame()`.  The source's `while` loop body ends in an
unconditional `return direction`, so at most one queued input is applied
per call; the model mirrors that: the emitted callback argument (if any)
is the first component. -/
def ReplayPlayer.processFrame (p : ReplayPlayer) : Option Point × ReplayPlayer :=
  match p.replayData with
  | none => (none, p)
  | some data =>
    if !p.isPlaying || p.isPaused then (none, p)
    else
      match data.inputs.get? p.inputIndex with
      | some input =>
        if input.frame = p.currentFrame then
          (some input.direction.vec, { p with inputIndex := p.inputIndex + 1 })
        else (none, p)
      | none => (none, p)

/-- `advanceFrame()`. -/
def ReplayPlayer.advanceFrame (p : ReplayPlayer) : ReplayPlayer :=
  if !p.isPlaying || p.isPaused then p
  else { p with currentFrame := p.currentFrame + 1 }

/-- `checkComplete()`. -/
def ReplayPlayer.checkComplete (p : ReplayPlayer) : Bool :=
  match p.replayData with
  | none => true
  | some data => p.inputIndex ≥ data.inputs.length

/-- JSON values, over character-code strings.  Numbers carry the integer
fragment that the replay serialization uses. -/
inductive Json where
  | jnull : Json
  | jbool : Bool → Json
  | jnum : Int → Json
  | jstr : List Nat → Json
  | jarr : List Json → Json
  | jobj : List (List Nat × Json) → Json
deriving Repr

/-- The replay-history storage slot, modelled by the JSON value it holds
(`none` = key absent).  The `JSON.stringify`/`JSON.parse` transport through
the string-valued store is exactly inverted by `jsonParse_renderJson` below,
so the slot is identified with its parsed value. -/
def ReplayStorage.loadReplayHistory (store : Option Json) : List Json :=
  match store with
  | none => []
  | some (Json.jarr items) => items
  | some _ => []

/-- `saveReplayToHistory(data)`: prepend and cap via `slice(0, 10)`. -/
def ReplayStorage.saveReplayToHistory (data : Json) (store : Option Json) : Option Json :=
  some (Json.jarr ((data :: ReplayStorage.loadReplayHistory store).take 10))

/-- A sequence of `saveReplayToHistory` calls, oldest first. -/
def ReplayStorage.applySaves (saves : List Json) (store : Option Json) : Option Json :=
  saves.foldl (fun st d => ReplayStorage.saveReplayToHistory d st) store

/-- Character codes of a string literal. -/
def strBytes (s : String) : List Nat := s.data.map Char.toNat

def isDigitCode (c : Nat) : Bool := 48 ≤ c && c ≤ 57

def isWsCode (c : Nat) : Bool := c = 32 || c = 9 || c = 10 || c = 13

def skipWs (s : List Nat) : List Nat := s.dropWhile isWsCode

/-- Decimal digits of `n`, most significant first, as character codes
(`JSON.stringify` of a non-negative integer). -/
def renderNat (n : Nat) : List Nat :=
  if n = 0 then [48] else ((Nat.digits 10 n).reverse).map fun d => d + 48

/-- `JSON.stringify` of an integer. -/
def renderInt (n : Int) : List Nat :=
  if n < 0 then 45 :: renderNat n.natAbs else renderNat n.natAbs

/-- Comma-separated concatenation (code 44 is a comma). -/
def joinComma : List (List Nat) → List Nat
  | [] => []
  | [x] => x
  | x :: y :: rest => x ++ 44 :: joinComma (y :: rest)

mutual

/-- `JSON.stringify` over the modelled JSON fragment: no added whitespace,
object keys in insertion order; codes 34 ` " `, 58 `:`, 91/93 square
brackets, 123/125 curly brackets. -/
def renderJson : Json → List Nat
  | .jnull => strBytes "null"
  | .jbool true => strBytes "true"
  | .jbool false => strBytes "false"
  | .jnum n => renderInt n
  | .jstr s => 34 :: s ++ [34]
  | .jarr items => 91 :: joinComma (renderItems items) ++ [93]
  | .jobj fields => 123 :: joinComma (renderFields fields) ++ [125]

def renderItems : List Json → List (List Nat)
  | [] => []
  | j :: js => renderJson j :: renderItems js

def renderFields : List (List Nat × Json) → List (List Nat)
  | [] => []
  | (k, v) :: rest => (34 :: k ++ [34, 58] ++ renderJson v) :: renderFields rest

end

/-- A character that may appear unescaped in a rendered JSON string:
printable ASCII other than the quote (34) and the backslash (92). -/
def safeChar (c : Nat) : Bool := 32 ≤ c && c < 128 && c != 34 && c != 92

mutual

/-- Well-formedness of a JSON value for the renderer: every string (and
every object key) consists of `safeChar` characters, so `JSON.stringify`
introduces no escape sequences. -/
def Json.wfB : Json → Bool
  | .jnull => true
  | .jbool _ => true
  | .jnum _ => true
  | .jstr s => s.all safeChar
  | .jarr items => wfItems items
  | .jobj fields => wfFields fields

def wfItems : List Json → Bool
  | [] => true
  | j :: js => j.wfB && wfItems js

def wfFields : List (List Nat × Json) → Bool
  | [] => true
  | (k, v) :: rest => k.all safeChar && v.wfB && wfFields rest

end

/-- Scan a JSON string body up to the closing quote.  Escape sequences
(92) and control characters are outside the modelled fragment. -/
def takeStr : List Nat → Option (List Nat × List Nat)
  | [] => none
  | c :: r =>
    if c = 34 then some ([], r)
    else if c = 92 || c < 32 then none
    else (takeStr r).map fun p => (c :: p.1, p.2)

/-- Match a literal character sequence at the front of the input. -/
def stripLit : List Nat → List Nat → Option (List Nat)
  | [], s => some s
  | _ :: _, [] => none
  | c :: cs, d :: s => if c = d then stripLit cs s else none

/-- Value of a list of decimal digit characters, most significant first. -/
def digitsVal (l : List Nat) : Nat := l.foldl (fun a c => 10 * a + (c - 48)) 0

/-- Heads that would continue a number with a fraction or exponent
(codes 46 `.`, 101 `e`, 69 `E`); the modelled parser rejects those. -/
def fracExpStart : List Nat → Bool
  | [] => false
  | c :: _ => c = 46 || c = 101 || c = 69

mutual

/-- Recursive-descent `JSON.parse` over the modelled fragment, with fuel
for the nesting recursion (the entry point supplies `length + 1`, which is
always sufficient). -/
def parseVal : Nat → List Nat → Option (Json × List Nat)
  | 0, _ => none
  | f + 1, s =>
    match skipWs s with
    | [] => none
    | c :: r =>
      if c = 34 then
        (takeStr r).map fun p => (Json.jstr p.1, p.2)
      else if c = 91 then
        match skipWs r with
        | [] => none
        | c' :: r' =>
          if c' = 93 then some (.jarr [], r')
          else (parseItems f (c' :: r')).map fun p => (Json.jarr p.1, p.2)
      else if c = 123 then
        match skipWs r with
        | [] => none
        | c' :: r' =>
          if c' = 125 then some (.jobj [], r')
          else (parseFields f (c' :: r')).map fun p => (Json.jobj p.1, p.2)
      else if c = 116 then
        (stripLit [114, 117, 101] r).map fun r' => (Json.jbool true, r')
      else if c = 102 then
        (stripLit [97, 108, 115, 101] r).map fun r' => (Json.jbool false, r')
      else if c = 110 then
        (stripLit [117, 108, 108] r).map fun r' => (Json.jnull, r')
      else if c = 45 then
        let ds := r.takeWhile isDigitCode
        if ds = [] then none
        else
          let r' := r.drop ds.length
          if fracExpStart r' then none
          else some (.jnum (-(digitsVal ds : Int)), r')
      else if isDigitCode c then
        let ds := (c :: r).takeWhile isDigitCode
        let r' := (c :: r).drop ds.length
        if fracExpStart r' then none
        else some (.jnum ((digitsVal ds : Int)), r')
      else none

/-- Elements of a non-empty array, after the opening bracket. -/
def parseItems : Nat → List Nat → Option (List Json × List Nat)
  | 0, _ => none
  | f + 1, s =>
    (parseVal f s).bind fun vr =>
      match skipWs vr.2 with
      | [] => none
      | c :: r' =>
        if c = 44 then (parseItems f r').map fun p => (vr.1 :: p.1, p.2)
        else if c = 93 then some ([vr.1], r')
        else none

/-- Members of a non-empty object, after the opening bracket. -/
def parseFields : Nat → List Nat → Option (List (List Nat × Json) × List Nat)
  | 0, _ => none
  | f + 1, s =>
    match skipWs s with
    | [] => none
    | c :: r =>
      if c = 34 then
        (takeStr r).bind fun kp =>
          match skipWs kp.2 with
          | [] => none
          | c2 :: r2 =>
            if c2 = 58 then
              (parseVal f r2).bind fun vr =>
                match skipWs vr.2 with
                | [] => none
                | c4 :: r4 =>
                  if c4 = 44 then
                    (parseFields f r4).map fun p => ((kp.1, vr.1) :: p.1, p.2)
                  else if c4 = 125 then some ([(kp.1, vr.1)], r4)
                  else none
            else none
      else none

end

/-- A rest-string that cannot extend a preceding number literal: it does
not start with a digit, `.`, `e` or `E`. -/
def numSafeB : List Nat → Bool
  | [] => true
  | c :: _ => !isDigitCode c && c != 46 && c != 101 && c != 69

/-- `JSON.parse`: a full parse with no trailing garbage (whitespace
allowed). -/
def jsonParse (s : List Nat) : Option Json :=
  match parseVal (s.length + 1) s with
  | some (j, r) => if skipWs r = [] then some j else none
  | none => none

/-- Characters `encodeURIComponent` leaves unescaped:
`A-Z a-z 0-9 - _ . ! ~ * ' ( )`. -/
def isUnreservedCode (c : Nat) : Bool :=
  (48 ≤ c && c ≤ 57) || (65 ≤ c && c ≤ 90) || (97 ≤ c && c ≤ 122) ||
  c = 45 || c = 95 || c = 46 || c = 33 || c = 126 || c = 42 || c = 39 || c = 40 || c = 41

/-- Uppercase hexadecimal digit character (as `encodeURIComponent` emits). -/
def hexDigitChar (n : Nat) : Nat := if n < 10 then 48 + n else 55 + n

/-- Value of a hexadecimal digit character, either case. -/
def hexDigitVal (c : Nat) : Option Nat :=
  if 48 ≤ c && c ≤ 57 then some (c - 48)
  else if 65 ≤ c && c ≤ 70 then some (c - 55)
  else if 97 ≤ c && c ≤ 102 then some (c - 87)
  else none

/-- UTF-8 bytes of a code point. -/
def utf8Bytes (c : Nat) : List Nat :=
  if c < 128 then [c]
  else if c < 2048 then [192 + c / 64, 128 + c % 64]
  else if c < 65536 then [224 + c / 4096, 128 + c / 64 % 64, 128 + c % 64]
  else [240 + c / 262144, 128 + c / 4096 % 64, 128 + c / 64 % 64, 128 + c % 64]

/-- `encodeURIComponent`: unreserved characters pass through; everything
else is percent-encoded byte-by-byte (code 37 is `%`). -/
def encodeURIComponent : List Nat → List Nat
  | [] => []
  | c :: r =>
    if isUnreservedCode c then c :: encodeURIComponent r
    else ((utf8Bytes c).map fun b => [37, hexDigitChar (b / 16), hexDigitChar (b % 16)]).flatten
      ++ encodeURIComponent r

/-- Phase one of `decodeURIComponent`: replace each `%XX` by its byte.
A stray `%` without two hexadecimal digits is an error. -/
def pctDecodeBytes : List Nat → Option (List Nat)
  | [] => some []
  | c :: r =>
    if c = 37 then
      match r with
      | h1 :: h2 :: r2 =>
        match hexDigitVal h1, hexDigitVal h2 with
        | some a, some b => (pctDecodeBytes r2).map fun t => (16 * a + b) :: t
        | _, _ => none
      | _ => none
    else (pctDecodeBytes r).map fun t => c :: t

def isContByte (c : Nat) : Bool := 128 ≤ c && c < 192

/-- Phase two of `decodeURIComponent`: UTF-8 decoding of the byte
sequence (fuel is the length of the input; literal characters above 127
are treated as their UTF-8 bytes, a harmless divergence for the ASCII
inputs this development exercises). -/
def utf8Decode : Nat → List Nat → Option (List Nat)
  | _, [] => some []
  | 0, _ :: _ => none
  | fuel + 1, b :: r =>
    if b < 128 then
      (utf8Decode fuel r).map fun t => b :: t
    else if 192 ≤ b && b < 224 then
      match r with
      | b2 :: r2 =>
        if isContByte b2 then
          (utf8Decode fuel r2).map fun t => (b % 32 * 64 + b2 % 64) :: t
        else none
      | [] => none
    else if 224 ≤ b && b < 240 then
      match r with
      | b2 :: b3 :: r2 =>
        if isContByte b2 && isContByte b3 then
          (utf8Decode fuel r2).map fun t => (b % 16 * 4096 + b2 % 64 * 64 + b3 % 64) :: t
        else none
      | _ => none
    else if 240 ≤ b && b < 248 then
      match r with
      | b2 :: b3 :: b4 :: r2 =>
        if isContByte b2 && isContByte b3 && isContByte b4 then
          (utf8Decode fuel r2).map fun t =>
            (b % 8 * 262144 + b2 % 64 * 4096 + b3 % 64 * 64 + b4 % 64) :: t
        else none
      | _ => none
    else none

/-- `decodeURIComponent`; `none` models the thrown `URIError`. -/
def decodeURIComponent (s : List Nat) : Option (List Nat) :=
  match pctDecodeBytes s with
  | some bytes => utf8Decode bytes.length bytes
  | none => none

/-- The base64 alphabet character for a 6-bit value. -/
def base64Char (n : Nat) : Nat :=
  if n < 26 then 65 + n
  else if n < 52 then 97 + (n - 26)
  else if n < 62 then 48 + (n - 52)
  else if n = 62 then 43
  else 47

/-- Value of a base64 alphabet character. -/
def base64Val (c : Nat) : Option Nat :=
  if 65 ≤ c && c ≤ 90 then some (c - 65)
  else if 97 ≤ c && c ≤ 122 then some (c - 97 + 26)
  else if 48 ≤ c && c ≤ 57 then some (c - 48 + 52)
  else if c = 43 then some 62
  else if c = 47 then some 63
  else none

/-- `btoa`: base64 encoding of a byte string (code 61 is the `=` pad). -/
def btoa : List Nat → List Nat
  | [] => []
  | [b1] => [base64Char (b1 / 4), base64Char (b1 % 4 * 16), 61, 61]
  | [b1, b2] =>
    [base64Char (b1 / 4), base64Char (b1 % 4 * 16 + b2 / 16), base64Char (b2 % 16 * 4), 61]
  | b1 :: b2 :: b3 :: rest =>
    base64Char (b1 / 4) :: base64Char (b1 % 4 * 16 + b2 / 16) ::
    base64Char (b2 % 16 * 4 + b3 / 64) :: base64Char (b3 % 64) :: btoa rest

/-- `atob`; `none` models the thrown `InvalidCharacterError`. -/
def atob : List Nat → Option (List Nat)
  | [] => some []
  | c1 :: c2 :: c3 :: c4 :: rest =>
    if c3 = 61 && c4 = 61 && rest = [] then
      match base64Val c1, base64Val c2 with
      | some s1, some s2 => some [s1 * 4 + s2 / 16]
      | _, _ => none
    else if c4 = 61 && rest = [] then
      match base64Val c1, base64Val c2, base64Val c3 with
      | some s1, some s2, some s3 => some [s1 * 4 + s2 / 16, s2 % 16 * 16 + s3 / 4]
      | _, _, _ => none
    else
      match base64Val c1, base64Val c2, base64Val c3, base64Val c4, atob rest with
      | some s1, some s2, some s3, some s4, some t =>
        some ((s1 * 4 + s2 / 16) :: (s2 % 16 * 16 + s3 / 4) :: (s3 % 4 * 64 + s4) :: t)
      | _, _, _, _, _ => none
  | _ => none

/-- The name recorded for a direction vector (`VECTOR_TO_DIRECTION`). -/
def Dir.name : Dir → List Nat
  | .up => strBytes "up"
  | .down => strBytes "down"
  | .left => strBytes "left"
  | .right => strBytes "right"

/-- JSON image of a point, key order as constructed by the source. -/
def Point.toJson (p : Point) : Json :=
  Json.jobj [(strBytes "x", Json.jnum p.x), (strBytes "y", Json.jnum p.y)]

/-- JSON image of a recorded input. -/
def ReplayInput.toJson (i : ReplayInput) : Json :=
  Json.jobj [(strBytes "frame", Json.jnum i.frame),
    (strBytes "direction", Json.jstr i.direction.name)]

/-- JSON image of a `ReplayData` record, key order exactly as the object
literal built by `stopRecording` (and the `ReplayData` interface). -/
def ReplayData.toJson (d : ReplayData) : Json :=
  Json.jobj [
    (strBytes "version", Json.jnum d.version),
    (strBytes "seed", Json.jnum d.seed),
    (strBytes "gridWidth", Json.jnum d.gridWidth),
    (strBytes "gridHeight", Json.jnum d.gridHeight),
    (strBytes "initialSnake", Json.jarr (d.initialSnake.map Point.toJson)),
    (strBytes "initialDirection", d.initialDirection.toJson),
    (strBytes "inputs", Json.jarr (d.inputs.map ReplayInput.toJson)),
    (strBytes "finalScore", Json.jnum d.finalScore),
    (strBytes "timestamp", Json.jnum d.timestamp),
    (strBytes "speedPercent", Json.jnum d.speedPercent)]

/-- Property lookup on a parsed JSON object; with duplicate keys the last
occurrence wins, as in `JSON.parse`. -/
def lookupLast : List (List Nat × Json) → List Nat → Option Json
  | [], _ => none
  | (k, v) :: rest, key =>
    match lookupLast rest key with
    | some r => some r
    | none => if k = key then some v else none

/-- `data.field` access on the parsed value. -/
def Json.getField (j : Json) (key : List Nat) : Option Json :=
  match j with
  | .jobj fields => lookupLast fields key
  | _ => none

def Json.isNum : Json → Bool
  | .jnum _ => true
  | _ => false

def Json.isArr : Json → Bool
  | .jarr _ => true
  | _ => false

/-- The structural validation of `importReplay`: `typeof data.version ===
'number'`, `typeof data.seed === 'number'`, `Array.isArray(data.inputs)`,
`Array.isArray(data.initialSnake)` (a missing property or a non-object
fails the corresponding check, as `undefined` does in the source). -/
def validReplayShape (j : Json) : Bool :=
  (match j.getField (strBytes "version") with
   | some v => v.isNum
   | none => false) &&
  (match j.getField (strBytes "seed") with
   | some v => v.isNum
   | none => false) &&
  (match j.getField (strBytes "inputs") with
   | some v => v.isArr
   | none => false) &&
  (match j.getField (strBytes "initialSnake") with
   | some v => v.isArr
   | none => false)

/-- `exportReplay(data)` = `btoa(encodeURIComponent(JSON.stringify(data)))`. -/
def ReplayStorage.exportReplay (d : ReplayData) : List Nat :=
  btoa (encodeURIComponent (renderJson d.toJson))

/-- `importReplay(encoded)`: decode, parse, validate; any failure (a thrown
decode/parse error or a failed validation) yields `none`. -/
def ReplayStorage.importReplay (encoded : List Nat) : Option Json :=
  match atob encoded with
  | none => none
  | some u =>
    match decodeURIComponent u with
    | none => none
    | some json =>
      match jsonParse json with
      | none => none
      | some data => if validReplayShape data then some data else none

/-- A replay with two inputs recorded on the same frame 0 (the repository's
own test data for "should handle multiple inputs at the same frame"). -/
def sameFrameReplay : ReplayData where
  version := 1
  seed := 12345
  gridWidth := 30
  gridHeight := 30
  initialSnake := [{ x := 5, y := 5 }]
  initialDirection := { x := 1, y := 0 }
  inputs := [{ frame := 0, direction := Dir.up }, { frame := 0, direction := Dir.left }]
  finalScore := 10
  timestamp := 0
  speedPercent := 75

/-- Eleven distinct history entries, oldest first. -/
def elevenSaves : List Json := (List.range 11).map fun i => Json.jnum i

/-- The four `Direction` names of the autopilot. -/
inductive AutoDir where
  | UP
  | DOWN
  | LEFT
  | RIGHT
deriving DecidableEq, Repr

/-- `directionToVector`. -/
def directionToVector : AutoDir → Point
  | .UP => { x := 0, y := -1 }
  | .DOWN => { x := 0, y := 1 }
  | .LEFT => { x := -1, y := 0 }
  | .RIGHT => { x := 1, y := 0 }

/-- `getNeighbors(pos)`, in the fixed order up, down, left, right. -/
def AutoPilot.getNeighbors (pos : Point) : List Point :=
  [{ x := pos.x, y := pos.y - 1 }, { x := pos.x, y := pos.y + 1 },
   { x := pos.x - 1, y := pos.y }, { x := pos.x + 1, y := pos.y }]

/-- `isValid(pos)`: inside the grid bounds. -/
def AutoPilot.isValid (W H : Int) (pos : Point) : Bool :=
  0 ≤ pos.x && pos.x < W && 0 ≤ pos.y && pos.y < H

/-- `createGrid(body)` as the cell-walkability function the boolean array
represents: every body segment except the last (the tail) and every
obstacle is marked non-walkable.  (The source skips marking out-of-bounds
cells only to protect array indexing; BFS queries the grid exclusively at
in-bounds cells.) -/
def AutoPilot.createGrid (body obstaclePositions : List Point) (p : Point) : Bool :=
  !(decide (p ∈ body.dropLast)) && !(decide (p ∈ obstaclePositions))

/-- One push step of the BFS neighbor loop: a valid, walkable, unvisited
neighbor is appended to the queue and marked visited immediately. -/
def bfsPush (W H : Int) (grid : Point → Bool) (path : List Point)
    (qv : List (Point × List Point) × List Point) (n : Point) :
    List (Point × List Point) × List Point :=
  if AutoPilot.isValid W H n && grid n && !(decide (n ∈ qv.2)) then
    (qv.1 ++ [(n, path ++ [n])], n :: qv.2)
  else qv

/-- The `while (queue.length > 0)` loop of `bfs`, with fuel.  The fuel
supplied by `AutoPilot.bfs` is `W*H + 1`, which `bfsAux_correct` shows is
never exhausted while the queue is non-empty, so the fuelled function
agrees with the source loop. -/
def AutoPilot.bfsAux (W H : Int) (grid : Point → Bool) (target : Point) :
    Nat → List (Point × List Point) → List Point → Option (List Point)
  | 0, _, _ => none
  | _ + 1, [], _ => none
  | fuel + 1, (pos, path) :: queue, visited =>
    if pos = target then some path
    else
      let qv := (AutoPilot.getNeighbors pos).foldl (bfsPush W H grid path) (queue, visited)
      AutoPilot.bfsAux W H grid target fuel qv.1 qv.2

/-- `bfs(start, target, grid)`. -/
def AutoPilot.bfs (W H : Int) (grid : Point → Bool) (start target : Point) :
    Option (List Point) :=
  AutoPilot.bfsAux W H grid target (W.toNat * H.toNat + 1) [(start, [])] [start]

/-- `getValidMoves(start, grid)`. -/
def AutoPilot.getValidMoves (W H : Int) (grid : Point → Bool) (start : Point) : List Point :=
  (AutoPilot.getNeighbors start).filter fun n => AutoPilot.isValid W H n && grid n

/-- `getDirection(from, to)`. -/
def AutoPilot.getDirection (a b : Point) : AutoDir :=
  if b.x > a.x then .RIGHT
  else if b.x < a.x then .LEFT
  else if b.y > a.y then .DOWN
  else if b.y < a.y then .UP
  else .UP

/-- `getNextMove()`: BFS path to the food if one exists (and is
non-empty), else the first immediately safe neighbor, else up. -/
def AutoPilot.getNextMove (W H : Int) (segments : List Point) (food : Point)
    (obstaclePositions : List Point) : Point :=
  let head := segments.headD { x := 0, y := 0 }
  let grid := AutoPilot.createGrid segments obstaclePositions
  match AutoPilot.bfs W H grid head food with
  | some (p0 :: _) => directionToVector (AutoPilot.getDirection head p0)
  | _ =>
    match AutoPilot.getValidMoves W H grid head with
    | m :: _ => directionToVector (AutoPilot.getDirection head m)
    | [] => { x := 0, y := -1 }

/-- One BFS step: `b` is a neighbor of `a` that is in bounds and walkable
(the walkability test applied to every cell a path visits after its
start). -/
def stepOK (W H : Int) (grid : Point → Bool) (a b : Point) : Prop :=
  b ∈ AutoPilot.getNeighbors a ∧ AutoPilot.isValid W H b = true ∧ grid b = true

instance stepOKDecidable (W H : Int) (grid : Point → Bool) (a b : Point) :
    Decidable (stepOK W H grid a b) :=
  decidable_of_iff
    (b ∈ AutoPilot.getNeighbors a ∧ AutoPilot.isValid W H b = true ∧ grid b = true) Iff.rfl

/-- Manhattan distance between two cells. -/
def manhattan (a b : Point) : Nat := (a.x - b.x).natAbs + (a.y - b.y).natAbs

/-- All cells of the grid. -/
def gridCells (W H : Int) : List Point :=
  (List.range W.toNat).flatMap fun i =>
    (List.range H.toNat).map fun j => { x := Int.ofNat i, y := Int.ofNat j }

/-- Number of grid cells not yet visited. -/
def freeCount (W H : Int) (visited : List Point) : Nat :=
  ((gridCells W H).filter fun c => !(decide (c ∈ visited))).length

/-- The cell a BFS walk occupies after `i` steps (`i = 0` is the start). -/
def cellAt (start : Point) (w : List Point) (i : Nat) : Point :=
  (start :: w).getD i start

/-- A walk from the head to the target whose every visited cell is a
walkable in-bounds step, and that never returns to the start. -/
def TChain (W H : Int) (grid : Point → Bool) (start target : Point) (w : List Point) : Prop :=
  List.Chain (stepOK W H grid) start w ∧ w.getLastD start = target ∧ start ∉ w

/-- The frontier invariant for one competing walk `w`: some queue entry
sits on `w` at step `i` with a recorded path no longer than `i`, and every
cell of `w` strictly after step `i` is unvisited. -/
def WitInv (start : Point) (queue : List (Point × List Point)) (visited : List Point)
    (w : List Point) : Prop :=
  ∃ i ≤ w.length, ∃ qp, (cellAt start w i, qp) ∈ queue ∧ qp.length ≤ i ∧
    ∀ j, i < j → j ≤ w.length → cellAt start w j ∉ visited

/-- Per-entry queue invariant of `bfs`: every queued path is a walkable
chain from the start ending at the entry's cell. -/
def EntryOK (W H : Int) (grid : Point → Bool) (start : Point)
    (e : Point × List Point) : Prop :=
  List.Chain (stepOK W H grid) start e.2 ∧ e.2.getLastD start = e.1

/-- Global queue invariant of `bfs`: recorded path lengths are
nondecreasing from front to back and spread at most one apart. -/
def QInv (queue : List (Point × List Point)) : Prop :=
  queue.Pairwise (fun a b => a.2.length ≤ b.2.length) ∧
  ∀ a ∈ queue, ∀ b ∈ queue, a.2.length ≤ b.2.length + 1

/- ### Theorems -/

/-- C6: `setDirection(v)` returns `false` and leaves the pending direction
unchanged iff `v` is the exact componentwise inverse of the *current*
direction; otherwise it returns `true` and stores `v` as pending. -/
theorem snake_setDirection_spec (s : Snake) (v : Point) :
    (v = s.direction.neg → s.setDirection v = (false, s)) ∧
    (v ≠ s.direction.neg → s.setDirection v = (true, { s with nextDirection := v })) ∧
    ((s.setDirection v).1 = false ↔ v = s.direction.neg) := by
  have hiff : (s.direction.x + v.x = 0 ∧ s.direction.y + v.y = 0) ↔ v = s.direction.neg := by
    obtain ⟨vx, vy⟩ := v
    simp only [Point.neg, Point.mk.injEq]
    constructor
    · rintro ⟨hx, hy⟩
      omega
    · rintro ⟨hx, hy⟩
      omega
  by_cases h : s.direction.x + v.x = 0 ∧ s.direction.y + v.y = 0
  · have hfalse : s.setDirection v = (false, s) := by
      unfold Snake.setDirection
      exact if_pos h
    exact ⟨fun _ => hfalse, fun hne => absurd (hiff.mp h) hne,
      by rw [hfalse]; exact ⟨fun _ => hiff.mp h, fun _ => rfl⟩⟩
  · have htrue : s.setDirection v = (true, { s with nextDirection := v }) := by
      unfold Snake.setDirection
      exact if_neg h
    refine ⟨fun hv => absurd (hiff.mpr hv) h, fun _ => htrue, ?_⟩
    rw [htrue]
    constructor
    · intro hfalse
      simp at hfalse
    · intro hv
      exact absurd (hiff.mpr hv) h

/-- Witness for C6 at a concrete snake: moving right, `left` is rejected,
`down` is accepted and stored. -/
theorem snake_setDirection_spec_witness :
    ((Snake.new 20 20).setDirection { x := -1, y := 0 } = (false, Snake.new 20 20)) ∧
    ((Snake.new 20 20).setDirection { x := 0, y := 1 }
      = (true, { Snake.new 20 20 with nextDirection := { x := 0, y := 1 } })) := by
  exact ⟨(snake_setDirection_spec (Snake.new 20 20) { x := -1, y := 0 }).1 (by decide),
    (snake_setDirection_spec (Snake.new 20 20) { x := 0, y := 1 }).2.1 (by decide)⟩

/-- C7 counterexample: snake heading right (`d = (1,0)`); queue `up` then
`down` (opposite cardinals, neither the inverse of `d`).  The pending
direction afterwards is `down` - the *second* input - not `up` as the claim
states. -/
theorem setDirection_last_wins_counterexample :
    (((Snake.new 20 20).setDirection { x := 0, y := -1 }).2.setDirection
        { x := 0, y := 1 }).2.nextDirection = { x := 0, y := 1 } ∧
    ¬((((Snake.new 20 20).setDirection { x := 0, y := -1 }).2.setDirection
        { x := 0, y := 1 }).2.nextDirection = { x := 0, y := -1 }) := by
  constructor
  · decide
  · decide

/-- C7 amended: when two opposite cardinal inputs `a` and `b = -a`, neither
equal to the inverse of the current direction, are queued via
`setDirection` before a single `move()` step, *both* calls are accepted and
the last one wins: the pending direction is `b` (each accepted call
overwrites the pending direction; the 180-degree check is only against the
current direction, which neither call changes). -/
theorem setDirection_last_wins (s : Snake) (a b : Point) (_hb : b = a.neg)
    (ha' : a ≠ s.direction.neg) (hb' : b ≠ s.direction.neg) :
    (s.setDirection a).1 = true ∧
    (((s.setDirection a).2).setDirection b).1 = true ∧
    (((s.setDirection a).2).setDirection b).2.nextDirection = b := by
  have h1 := (snake_setDirection_spec s a).2.1 ha'
  have hdir : (s.setDirection a).2.direction = s.direction := by
    rw [h1]
  have h2 := (snake_setDirection_spec (s.setDirection a).2 b).2.1 (by rw [hdir]; exact hb')
  refine ⟨by rw [h1], by rw [h2], by rw [h2]⟩

/-- Witness for C7 amended at the concrete counterexample input. -/
theorem setDirection_last_wins_witness :
    ((Snake.new 20 20).setDirection { x := 0, y := -1 }).1 = true ∧
    ((((Snake.new 20 20).setDirection { x := 0, y := -1 }).2).setDirection
        { x := 0, y := 1 }).1 = true ∧
    ((((Snake.new 20 20).setDirection { x := 0, y := -1 }).2).setDirection
        { x := 0, y := 1 }).2.nextDirection = { x := 0, y := 1 } :=
  setDirection_last_wins (Snake.new 20 20) { x := 0, y := -1 } { x := 0, y := 1 }
    (by decide) (by decide) (by decide)

/-- C10: `setDirection` does not validate that its argument is a cardinal
unit vector: any `v` that is not the exact inverse of the current direction
- including the zero vector and diagonals - is accepted and stored, and the
next `move()` adds `v` componentwise to the head coordinate. -/
theorem setDirection_no_validation (s : Snake) (v : Point)
    (hv : v ≠ s.direction.neg) (hseg : s.segments ≠ []) :
    s.setDirection v = (true, { s with nextDirection := v }) ∧
    ((s.setDirection v).2.move).head =
      { x := s.head.x + v.x, y := s.head.y + v.y } := by
  have h1 := (snake_setDirection_spec s v).2.1 hv
  refine ⟨h1, ?_⟩
  rw [h1]
  unfold Snake.move Snake.head
  by_cases hg : s.growing
  · simp [hg]
  · simp only [hg, Bool.not_false, if_pos]
    rw [List.dropLast_cons_of_ne_nil hseg]
    simp

/-- Witness for C10: the zero vector and a diagonal vector are both
accepted by a freshly constructed snake and shift the head accordingly. -/
theorem setDirection_no_validation_witness :
    ((Snake.new 20 20).setDirection { x := 0, y := 0 }
        = (true, { Snake.new 20 20 with nextDirection := { x := 0, y := 0 } }) ∧
      (((Snake.new 20 20).setDirection { x := 0, y := 0 }).2.move).head
        = { x := 5, y := 5 }) ∧
    ((Snake.new 20 20).setDirection { x := 1, y := 1 }
        = (true, { Snake.new 20 20 with nextDirection := { x := 1, y := 1 } }) ∧
      (((Snake.new 20 20).setDirection { x := 1, y := 1 }).2.move).head
        = { x := 6, y := 6 }) := by
  have h0 := setDirection_no_validation (Snake.new 20 20) { x := 0, y := 0 }
    (by decide) (by decide)
  have h1 := setDirection_no_validation (Snake.new 20 20) { x := 1, y := 1 }
    (by decide) (by decide)
  exact ⟨⟨h0.1, h0.2⟩, ⟨h1.1, h1.2⟩⟩

/-- C2: two `SeededRandom` generators constructed with the same seed
produce bit-identical sequences for any equal number of `random()` draws
and for any equal list of `randomInt` bounds. -/
theorem seededRandom_deterministic (s : Nat) (g1 g2 : SeededRandom)
    (h1 : g1 = SeededRandom.mk s) (h2 : g2 = SeededRandom.mk s)
    (n : Nat) (maxes : List Nat) :
    g1.draws n = g2.draws n ∧ g1.intDraws maxes = g2.intDraws maxes := by
  subst h1; subst h2; exact ⟨rfl, rfl⟩

/-- Witness for C2 at seed 12345, three draws and two bounded draws. -/
theorem seededRandom_deterministic_witness :
    (SeededRandom.mk 12345).draws 3 = (SeededRandom.mk 12345).draws 3 ∧
    (SeededRandom.mk 12345).intDraws [10, 20] = (SeededRandom.mk 12345).intDraws [10, 20] :=
  seededRandom_deterministic 12345 (SeededRandom.mk 12345) (SeededRandom.mk 12345)
    rfl rfl 3 [10, 20]

/-- Soundness of the respawn loop: whenever it returns, the resulting cell
overlaps neither the snake segments nor the obstacles supplied to it. -/
theorem respawnGo_sound (rand : Food → Food) (snake obstacles : List Point)
    (fuel : Nat) (f g : Food)
    (h : Food.respawnGo rand snake obstacles fuel f = some g) :
    ({ x := g.x, y := g.y } : Point) ∉ snake ∧
    ({ x := g.x, y := g.y } : Point) ∉ obstacles := by
  induction fuel generalizing f with
  | zero => simp [Food.respawnGo] at h
  | succ n ih =>
    rw [Food.respawnGo] at h
    by_cases hc :
        (!snake.any fun segment => segment.x == (rand f).x && segment.y == (rand f).y) &&
        (!obstacles.any fun obs => obs.x == (rand f).x && obs.y == (rand f).y)
    · rw [if_pos hc] at h
      obtain rfl : rand f = g := by simpa using h
      simp only [Bool.and_eq_true, Bool.not_eq_true', List.any_eq_false] at hc
      obtain ⟨hs, ho⟩ := hc
      constructor
      · intro hmem
        have := hs _ hmem
        simp at this
      · intro hmem
        have := ho _ hmem
        simp at this
    · rw [if_neg hc] at h
      exact ih _ h

/-- C8: for every snake-segment set and obstacle set for which
`Food.respawn` returns, the resulting food cell is a member of neither set
supplied at the time of the respawn. -/
theorem food_respawn_avoids_occupied (fuel : Nat) (f g : Food)
    (snakeSegments obstaclePositions : List Point)
    (h : Food.respawn fuel f snakeSegments obstaclePositions = some g) :
    ({ x := g.x, y := g.y } : Point) ∉ snakeSegments ∧
    ({ x := g.x, y := g.y } : Point) ∉ obstaclePositions :=
  respawnGo_sound Food.randomize snakeSegments obstaclePositions fuel f g h

/-- Witness for C8: a concrete seeded respawn on a 5-by-5 grid lands on
(3, 0), avoiding the snake cell (0, 0) and the obstacle cell (1, 1). -/
theorem food_respawn_avoids_occupied_witness :
    Food.respawn 10
      { x := 0, y := 0, gridWidth := 5, gridHeight := 5, rng := some (SeededRandom.mk 1) }
      [{ x := 0, y := 0 }] [{ x := 1, y := 1 }]
      = some { x := 3, y := 0, gridWidth := 5, gridHeight := 5,
               rng := some (SeededRandom.mk 3663131627) } ∧
    ({ x := 3, y := 0 } : Point) ∉ [({ x := 0, y := 0 } : Point)] ∧
    ({ x := 3, y := 0 } : Point) ∉ [({ x := 1, y := 1 } : Point)] := by
  have hg : Food.respawn 10
      { x := 0, y := 0, gridWidth := 5, gridHeight := 5, rng := some (SeededRandom.mk 1) }
      [{ x := 0, y := 0 }] [{ x := 1, y := 1 }]
      = some { x := 3, y := 0, gridWidth := 5, gridHeight := 5,
               rng := some (SeededRandom.mk 3663131627) } := by decide
  exact ⟨hg, food_respawn_avoids_occupied 10 _ _ _ _ hg⟩

/-- C1 (code bug): with a loaded, playing, un-paused replay holding the two
frame-0 inputs `up` and `left`, a single `processFrame()` call applies only
the first input and advances the cursor to 1, not past both.  After the
game loop's `advanceFrame()`, the second frame-0 input can never fire (the
cursor comparison is strict equality with the now-larger frame counter) and
`checkComplete()` stays false. -/
theorem processFrame_applies_at_most_one_input :
    (((ReplayPlayer.loadReplay sameFrameReplay).startPlayback).processFrame).1
      = some { x := 0, y := -1 } ∧
    (((ReplayPlayer.loadReplay sameFrameReplay).startPlayback).processFrame).2.inputIndex
      = 1 ∧
    (((((ReplayPlayer.loadReplay sameFrameReplay).startPlayback).processFrame).2.advanceFrame).processFrame).1
      = none ∧
    ((((ReplayPlayer.loadReplay sameFrameReplay).startPlayback).processFrame).2.advanceFrame).checkComplete
      = false := by
  decide

/-- C3 counterexample: after saving eleven entries into an empty history,
only ten are retained - the claimed cap of 50 would have kept all eleven. -/
theorem saveReplayToHistory_cap_counterexample :
    (ReplayStorage.loadReplayHistory (ReplayStorage.applySaves elevenSaves none)).length = 10 ∧
    ¬(ReplayStorage.loadReplayHistory
        (ReplayStorage.applySaves elevenSaves none)).length = 11 := by
  decide

/-- C3 amended: for every sequence of `saveReplayToHistory` calls starting
from an empty store, the stored history is a prepend-and-cap ring retaining
only the 10 most recent entries, and `loadReplayHistory` returns them
most-recent-first. -/
theorem saveReplayToHistory_cap_ten (saves : List Json) :
    ReplayStorage.loadReplayHistory (ReplayStorage.applySaves saves none)
      = saves.reverse.take 10 := by
  have htake : ∀ (l m : List Json),
      (l ++ m.take 10).take 10 = (l ++ m).take 10 := by
    intro l m
    rw [List.take_append_eq_append_take, List.take_append_eq_append_take,
      List.take_take, min_eq_left (Nat.sub_le 10 l.length)]
  have key : ∀ (saves : List Json) (store : Option Json),
      (ReplayStorage.loadReplayHistory store).length ≤ 10 →
      ReplayStorage.loadReplayHistory (ReplayStorage.applySaves saves store)
        = (saves.reverse ++ ReplayStorage.loadReplayHistory store).take 10 := by
    intro saves
    induction saves with
    | nil =>
      intro store hlen
      simp [ReplayStorage.applySaves, List.take_of_length_le hlen]
    | cons d rest ih =>
      intro store hlen
      have hstep : ReplayStorage.applySaves (d :: rest) store
          = ReplayStorage.applySaves rest (ReplayStorage.saveReplayToHistory d store) := rfl
      have hload : ReplayStorage.loadReplayHistory (ReplayStorage.saveReplayToHistory d store)
          = (d :: ReplayStorage.loadReplayHistory store).take 10 := rfl
      rw [hstep, ih _ (by rw [hload]; exact (List.length_take_le _ _))]
      rw [hload, htake]
      simp
  have := key saves none (by simp [ReplayStorage.loadReplayHistory])
  simpa [ReplayStorage.loadReplayHistory] using this

/-- Decoding inverts the base64 alphabet on 6-bit values. -/
theorem base64Val_base64Char : ∀ n < 64, base64Val (base64Char n) = some n := by
  decide

/-- No 6-bit value encodes to the pad character. -/
theorem base64Char_ne_pad : ∀ n < 64, base64Char n ≠ 61 := by
  decide

/-- `atob` inverts `btoa` on byte strings. -/
theorem atob_btoa : ∀ (u : List Nat), (∀ b ∈ u, b < 256) → atob (btoa u) = some u := by
  have H : ∀ (n : Nat) (u : List Nat), u.length ≤ n → (∀ b ∈ u, b < 256) →
      atob (btoa u) = some u := by
    intro n
    induction n with
    | zero =>
      intro u hlen _
      have : u = [] := List.length_eq_zero.mp (Nat.le_zero.mp hlen)
      subst this
      rfl
    | succ n ih =>
      intro u hlen hb
      match u with
      | [] => rfl
      | [b1] =>
        have hb1 : b1 < 256 := hb b1 (by simp)
        have h1 := base64Val_base64Char (b1 / 4) (by omega)
        have h2 := base64Val_base64Char (b1 % 4 * 16) (by omega)
        simp only [btoa, atob]
        simp only [h1, h2]
        norm_num
        omega
      | [b1, b2] =>
        have hb1 : b1 < 256 := hb b1 (by simp)
        have hb2 : b2 < 256 := hb b2 (by simp)
        have h1 := base64Val_base64Char (b1 / 4) (by omega)
        have h2 := base64Val_base64Char (b1 % 4 * 16 + b2 / 16) (by omega)
        have h3 := base64Val_base64Char (b2 % 16 * 4) (by omega)
        have hne : base64Char (b2 % 16 * 4) ≠ 61 := base64Char_ne_pad _ (by omega)
        simp only [btoa, atob]
        simp only [hne, h1, h2, h3]
        norm_num
        constructor
        · omega
        · omega
      | b1 :: b2 :: b3 :: rest =>
        have hb1 : b1 < 256 := hb b1 (by simp)
        have hb2 : b2 < 256 := hb b2 (by simp)
        have hb3 : b3 < 256 := hb b3 (by simp)
        have h1 := base64Val_base64Char (b1 / 4) (by omega)
        have h2 := base64Val_base64Char (b1 % 4 * 16 + b2 / 16) (by omega)
        have h3 := base64Val_base64Char (b2 % 16 * 4 + b3 / 64) (by omega)
        have h4 := base64Val_base64Char (b3 % 64) (by omega)
        have hne3 : base64Char (b2 % 16 * 4 + b3 / 64) ≠ 61 := base64Char_ne_pad _ (by omega)
        have hne4 : base64Char (b3 % 64) ≠ 61 := base64Char_ne_pad _ (by omega)
        have hrest : atob (btoa rest) = some rest := by
          apply ih
          · simp only [List.length_cons] at hlen
            omega
          · intro b hbmem
            exact hb b (by simp [hbmem])
        simp only [btoa, atob]
        simp only [hne3, hne4, h1, h2, h3, h4, hrest]
        norm_num
        refine ⟨by omega, by omega, by omega⟩
  intro u hu
  exact H u.length u le_rfl hu

/-- Decoding inverts the hexadecimal digit characters. -/
theorem hexDigitVal_hexDigitChar : ∀ n < 16, hexDigitVal (hexDigitChar n) = some n := by
  decide

/-- `encodeURIComponent` of an ASCII string is ASCII. -/
theorem encodeURIComponent_ascii (s : List Nat) (h : ∀ c ∈ s, c < 128) :
    ∀ c' ∈ encodeURIComponent s, c' < 128 := by
  induction s with
  | nil => simp [encodeURIComponent]
  | cons c r ih =>
    have hc : c < 128 := h c (by simp)
    have hr : ∀ c' ∈ r, c' < 128 := fun c' hm => h c' (by simp [hm])
    intro c' hm
    rw [encodeURIComponent] at hm
    by_cases hu : isUnreservedCode c = true
    · rw [if_pos hu] at hm
      rcases List.mem_cons.mp hm with rfl | hm'
      · exact hc
      · exact ih hr c' hm'
    · rw [if_neg hu] at hm
      rcases List.mem_append.mp hm with hm' | hm'
      · have hb : utf8Bytes c = [c] := by
          unfold utf8Bytes
          rw [if_pos hc]
        rw [hb] at hm'
        simp only [List.map_cons, List.map_nil, List.flatten_cons, List.flatten_nil,
          List.append_nil, List.mem_cons, List.not_mem_nil, or_false] at hm'
        have h16a : hexDigitChar (c / 16) < 128 := by
          unfold hexDigitChar
          split <;> omega
        have h16b : hexDigitChar (c % 16) < 128 := by
          unfold hexDigitChar
          split <;> omega
        rcases hm' with rfl | rfl | rfl
        · omega
        · exact h16a
        · exact h16b
      · exact ih hr c' hm'

/-- Phase one of decoding inverts `encodeURIComponent` on ASCII input. -/
theorem pctDecodeBytes_encode (s : List Nat) (h : ∀ c ∈ s, c < 128) :
    pctDecodeBytes (encodeURIComponent s) = some s := by
  induction s with
  | nil => rfl
  | cons c r ih =>
    have hc : c < 128 := h c (by simp)
    have hr : ∀ c' ∈ r, c' < 128 := fun c' hm => h c' (by simp [hm])
    rw [encodeURIComponent]
    by_cases hu : isUnreservedCode c = true
    · rw [if_pos hu]
      have hc37 : ¬c = 37 := by
        intro hc37
        subst hc37
        simp [isUnreservedCode] at hu
      rw [pctDecodeBytes.eq_def]
      simp only [if_neg hc37, ih hr, Option.map_some']
    · rw [if_neg hu]
      have hb : utf8Bytes c = [c] := by
        unfold utf8Bytes
        rw [if_pos hc]
      rw [hb]
      simp only [List.map_cons, List.map_nil, List.flatten_cons, List.flatten_nil,
        List.append_nil, List.cons_append, List.nil_append]
      rw [pctDecodeBytes.eq_def]
      simp only [if_pos rfl, hexDigitVal_hexDigitChar (c / 16) (by omega),
        hexDigitVal_hexDigitChar (c % 16) (by omega), ih hr, Option.map_some']
      have : 16 * (c / 16) + c % 16 = c := by omega
      rw [this]
      simp

/-- UTF-8 decoding is the identity on ASCII byte strings. -/
theorem utf8Decode_ascii (fuel : Nat) (bytes : List Nat) (h : ∀ b ∈ bytes, b < 128)
    (hf : bytes.length ≤ fuel) : utf8Decode fuel bytes = some bytes := by
  induction fuel generalizing bytes with
  | zero =>
    have : bytes = [] := List.length_eq_zero.mp (Nat.le_zero.mp hf)
    subst this
    rfl
  | succ n ih =>
    match bytes with
    | [] => rfl
    | b :: r =>
      have hb : b < 128 := h b (by simp)
      have hr : ∀ b' ∈ r, b' < 128 := fun b' hm => h b' (by simp [hm])
      rw [utf8Decode.eq_def]
      simp only [if_pos hb, ih r hr (by simp at hf; omega), Option.map_some']

/-- `decodeURIComponent` inverts `encodeURIComponent` on ASCII strings. -/
theorem decodeURIComponent_encode (s : List Nat) (h : ∀ c ∈ s, c < 128) :
    decodeURIComponent (encodeURIComponent s) = some s := by
  unfold decodeURIComponent
  rw [pctDecodeBytes_encode s h]
  exact utf8Decode_ascii s.length s h le_rfl

/-- The digit string of `n` is non-empty. -/
theorem renderNat_ne_nil (n : Nat) : renderNat n ≠ [] := by
  unfold renderNat
  split
  · simp
  · simp only [ne_eq, List.map_eq_nil_iff, List.reverse_eq_nil_iff]
    simp [Nat.digits_ne_nil_iff_ne_zero, *]

/-- Every character of the digit string is a digit character. -/
theorem renderNat_digits (n : Nat) : ∀ c ∈ renderNat n, isDigitCode c = true := by
  unfold renderNat
  split
  · intro c hc
    simp only [List.mem_singleton] at hc
    subst hc
    decide
  · intro c hc
    simp only [List.mem_map, List.mem_reverse] at hc
    obtain ⟨d, hd, rfl⟩ := hc
    have : d < 10 := Nat.digits_lt_base (by norm_num) hd
    simp only [isDigitCode, Bool.and_eq_true, decide_eq_true_eq]
    omega

/-- Parsing the digit string of `n` recovers `n`. -/
theorem digitsVal_renderNat (n : Nat) : digitsVal (renderNat n) = n := by
  have hfoldr : ∀ L : List Nat, L.foldr (fun d a => 10 * a + d) 0 = Nat.ofDigits 10 L := by
    intro L
    induction L with
    | nil => simp [Nat.ofDigits]
    | cons d L ih =>
      simp only [List.foldr_cons, ih, Nat.ofDigits_cons]
      omega
  unfold renderNat
  split
  · rename_i h0
    subst h0
    rfl
  · unfold digitsVal
    rw [List.foldl_map]
    simp only [Nat.add_sub_cancel]
    rw [List.foldl_reverse]
    have : (fun (x : Nat) (y : Nat) => 10 * y + x) = (fun d a => 10 * a + d) := rfl
    rw [this, hfoldr, Nat.ofDigits_digits]

/-- `takeWhile` runs through a block that satisfies the predicate. -/
theorem takeWhile_append_all (p : Nat → Bool) (l rest : List Nat)
    (hl : ∀ c ∈ l, p c = true) :
    (l ++ rest).takeWhile p = l ++ rest.takeWhile p := by
  induction l with
  | nil => simp
  | cons c l' ih =>
    simp only [List.cons_append, List.takeWhile_cons, hl c (by simp), if_true]
    rw [ih fun c' hm => hl c' (by simp [hm])]

/-- `takeWhile` stops at an unsatisfying head. -/
theorem takeWhile_eq_nil_of_head (p : Nat → Bool) (rest : List Nat)
    (h : ∀ c, rest.head? = some c → p c = false) : rest.takeWhile p = [] := by
  cases rest with
  | nil => rfl
  | cons c r => simp [List.takeWhile_cons, h c rfl]

/-- Scanning a safe string body stops exactly at the closing quote. -/
theorem takeStr_append (s rest : List Nat) (h : s.all safeChar = true) :
    takeStr (s ++ 34 :: rest) = some (s, rest) := by
  induction s with
  | nil => simp [takeStr]
  | cons c s' ih =>
    simp only [List.all_cons, Bool.and_eq_true] at h
    obtain ⟨hc, hs'⟩ := h
    simp only [safeChar, Bool.and_eq_true, decide_eq_true_eq, bne_iff_ne, ne_eq] at hc
    simp only [List.cons_append]
    rw [takeStr]
    rw [if_neg (by omega), if_neg (by simp; omega), ih hs', Option.map_some']

/-- Matching a literal strips exactly that literal. -/
theorem stripLit_append (lit rest : List Nat) : stripLit lit (lit ++ rest) = some rest := by
  induction lit with
  | nil => rfl
  | cons c cs ih =>
    simp only [List.cons_append]
    rw [stripLit, if_pos rfl]
    exact ih

/-- Whitespace skipping is the identity on a non-whitespace head. -/
theorem skipWs_cons (c : Nat) (r : List Nat) (h : isWsCode c = false) :
    skipWs (c :: r) = c :: r := by
  simp [skipWs, List.dropWhile_cons, h]

/-- Every rendered JSON value starts with a character that is not
whitespace and is none of the closing brackets or the comma. -/
theorem renderJson_head (j : Json) :
    ∃ c tail, renderJson j = c :: tail ∧ isWsCode c = false ∧ c ≠ 93 ∧ c ≠ 125 ∧ c ≠ 44 := by
  cases j with
  | jnull => exact ⟨110, [117, 108, 108], rfl, by decide, by decide, by decide, by decide⟩
  | jbool b =>
    cases b with
    | true => exact ⟨116, [114, 117, 101], rfl, by decide, by decide, by decide, by decide⟩
    | false =>
      exact ⟨102, [97, 108, 115, 101], rfl, by decide, by decide, by decide, by decide⟩
  | jnum n =>
    by_cases hn : n < 0
    · refine ⟨45, renderNat n.natAbs, ?_, by decide, by decide, by decide, by decide⟩
      unfold renderJson renderInt
      rw [if_pos hn]
    · have hne := renderNat_ne_nil n.natAbs
      cases hren : renderNat n.natAbs with
      | nil => exact absurd hren hne
      | cons c tail =>
        have hd : isDigitCode c = true := renderNat_digits n.natAbs c (by rw [hren]; simp)
        simp only [isDigitCode, Bool.and_eq_true, decide_eq_true_eq] at hd
        refine ⟨c, tail, ?_, ?_, by omega, by omega, by omega⟩
        · unfold renderJson renderInt
          rw [if_neg hn, hren]
        · simp only [isWsCode, Bool.or_eq_false_iff, decide_eq_false_iff_not]
          omega
  | jstr s =>
    exact ⟨34, s ++ [34], by rw [renderJson]; simp, by decide, by decide, by decide, by decide⟩
  | jarr items =>
    exact ⟨91, joinComma (renderItems items) ++ [93], by rw [renderJson]; simp, by decide,
      by decide, by decide, by decide⟩
  | jobj fields =>
    exact ⟨123, joinComma (renderFields fields) ++ [125], by rw [renderJson]; simp, by decide,
      by decide, by decide, by decide⟩

/-- A closing bracket or comma cannot extend a number literal. -/
theorem numSafeB_closing (rest : List Nat) :
    numSafeB (93 :: rest) = true ∧ numSafeB (125 :: rest) = true ∧
    numSafeB (44 :: rest) = true := by
  exact ⟨rfl, rfl, rfl⟩

/-- The digit run of a rendered number followed by a number-safe rest. -/
theorem takeWhile_render_digits (m : Nat) (rest : List Nat) (h : numSafeB rest = true) :
    (renderNat m ++ rest).takeWhile isDigitCode = renderNat m ∧
    (renderNat m ++ rest).drop (renderNat m).length = rest ∧
    fracExpStart rest = false := by
  have htw : (renderNat m ++ rest).takeWhile isDigitCode = renderNat m := by
    rw [takeWhile_append_all isDigitCode (renderNat m) rest (renderNat_digits m)]
    rw [takeWhile_eq_nil_of_head]
    · simp
    · intro c hc
      cases rest with
      | nil => simp at hc
      | cons c0 r0 =>
        simp only [List.head?_cons, Option.some.injEq] at hc
        subst hc
        simp only [numSafeB, Bool.and_eq_true, Bool.not_eq_true'] at h
        exact h.1.1.1
  refine ⟨htw, List.drop_left _ _, ?_⟩
  cases rest with
  | nil => rfl
  | cons c0 r0 =>
    simp only [numSafeB, Bool.and_eq_true, bne_iff_ne, ne_eq] at h
    simp only [fracExpStart, Bool.or_eq_false_iff, decide_eq_false_iff_not]
    exact ⟨⟨h.1.1.2, h.1.2⟩, h.2⟩

/-- The first block of a comma join is a prefix. -/
theorem joinComma_first (l : List Nat) (ls : List (List Nat)) :
    ∃ t, joinComma (l :: ls) = l ++ t := by
  cases ls with
  | nil => exact ⟨[], by simp [joinComma]⟩
  | cons y rest => exact ⟨44 :: joinComma (y :: rest), rfl⟩

/-- The parser inverts the renderer: on any rendered well-formed value
followed by a number-safe rest, `parseVal` succeeds and consumes exactly
the rendered text, given fuel exceeding the rendered length (with the
corresponding statements for array elements and object members). -/
theorem parse_render_main : ∀ f : Nat,
    (∀ j, Json.wfB j = true → ∀ rest, numSafeB rest = true → (renderJson j).length < f →
      parseVal f (renderJson j ++ rest) = some (j, rest)) ∧
    (∀ items, items ≠ [] → wfItems items = true → ∀ rest,
      (joinComma (renderItems items)).length + 1 < f →
      parseItems f (joinComma (renderItems items) ++ 93 :: rest) = some (items, rest)) ∧
    (∀ fields, fields ≠ [] → wfFields fields = true → ∀ rest,
      (joinComma (renderFields fields)).length + 1 < f →
      parseFields f (joinComma (renderFields fields) ++ 125 :: rest) = some (fields, rest)) := by
  intro f
  induction f using Nat.strong_induction_on with
  | _ f ih =>
    cases f with
    | zero =>
      exact ⟨fun j _ rest _ hb => absurd hb (by omega),
        fun items _ _ rest hb => absurd hb (by omega),
        fun fields _ _ rest hb => absurd hb (by omega)⟩
    | succ g =>
      obtain ⟨ihA, ihB, ihC⟩ := ih g (by omega)
      refine ⟨?_, ?_, ?_⟩
      · intro j hwf rest hrest hlen
        cases j with
        | jnull =>
          have hr : renderJson Json.jnull = [110, 117, 108, 108] := by rw [renderJson]; rfl
          rw [hr]
          rw [parseVal]
          simp only [List.cons_append, List.nil_append]
          rw [skipWs_cons 110 _ (by decide)]
          simp
          exact stripLit_append [117, 108, 108] rest
        | jbool b =>
          cases b with
          | true =>
            have hr : renderJson (Json.jbool true) = [116, 114, 117, 101] := by
              rw [renderJson]; rfl
            rw [hr]
            rw [parseVal]
            simp only [List.cons_append, List.nil_append]
            rw [skipWs_cons 116 _ (by decide)]
            simp
            exact stripLit_append [114, 117, 101] rest
          | false =>
            have hr : renderJson (Json.jbool false) = [102, 97, 108, 115, 101] := by
              rw [renderJson]; rfl
            rw [hr]
            rw [parseVal]
            simp only [List.cons_append, List.nil_append]
            rw [skipWs_cons 102 _ (by decide)]
            simp
            exact stripLit_append [97, 108, 115, 101] rest
        | jnum n =>
          by_cases hn : n < 0
          · have hr : renderJson (Json.jnum n) = 45 :: renderNat n.natAbs := by
              rw [renderJson]
              unfold renderInt
              rw [if_pos hn]
            rw [hr]
            rw [parseVal]
            simp only [List.cons_append]
            rw [skipWs_cons 45 _ (by decide)]
            obtain ⟨htw, hdrop, hfrac⟩ := takeWhile_render_digits n.natAbs rest hrest
            simp only [htw, hdrop, hfrac, renderNat_ne_nil n.natAbs, digitsVal_renderNat]
            simp
            rw [abs_of_nonpos (by omega : n ≤ 0), neg_neg]
          · have hne := renderNat_ne_nil n.natAbs
            cases hren : renderNat n.natAbs with
            | nil => exact absurd hren hne
            | cons c tail =>
              have hd : isDigitCode c = true :=
                renderNat_digits n.natAbs c (by rw [hren]; simp)
              have hdfacts : 48 ≤ c ∧ c ≤ 57 := by
                simp only [isDigitCode, Bool.and_eq_true, decide_eq_true_eq] at hd
                exact hd
              have hr : renderJson (Json.jnum n) = renderNat n.natAbs := by
                rw [renderJson]
                unfold renderInt
                rw [if_neg hn]
              rw [hr, hren]
              rw [parseVal]
              simp only [List.cons_append]
              rw [skipWs_cons c _ (by simp only [isWsCode]; simp; omega)]
              have h34 : ¬(c = 34) := by omega
              have h91 : ¬(c = 91) := by omega
              have h123 : ¬(c = 123) := by omega
              have h116 : ¬(c = 116) := by omega
              have h102 : ¬(c = 102) := by omega
              have h110 : ¬(c = 110) := by omega
              have h45 : ¬(c = 45) := by omega
              have hassoc : c :: (tail ++ rest) = renderNat n.natAbs ++ rest := by
                rw [hren]
                rfl
              obtain ⟨htw, hdrop, hfrac⟩ := takeWhile_render_digits n.natAbs rest hrest
              have htw' : (c :: (tail ++ rest)).takeWhile isDigitCode = renderNat n.natAbs := by
                rw [hassoc]
                exact htw
              have hdrop' : (c :: (tail ++ rest)).drop (renderNat n.natAbs).length = rest := by
                rw [hassoc]
                exact hdrop
              simp only [h34, h91, h123, h116, h102, h110, h45, hd, if_false, if_true,
                htw', hdrop', hfrac, digitsVal_renderNat, reduceIte, Bool.false_eq_true]
              rw [Int.natAbs_of_nonneg (by omega)]
        | jstr s =>
          rw [Json.wfB] at hwf
          rw [renderJson]
          rw [parseVal]
          simp only [List.cons_append, List.append_assoc, List.singleton_append]
          rw [skipWs_cons 34 _ (by decide)]
          simp [takeStr_append s rest hwf]
        | jarr items =>
          cases items with
          | nil =>
            have hr : renderJson (Json.jarr []) = [91, 93] := by
              rw [renderJson, renderItems]
              rfl
            rw [hr]
            rw [parseVal]
            simp only [List.cons_append, List.nil_append]
            rw [skipWs_cons 91 _ (by decide)]
            dsimp only []
            rw [if_neg (by decide : ¬(91 : Nat) = 34), if_pos (by decide : (91 : Nat) = 91)]
            rw [skipWs_cons 93 _ (by decide)]
            simp
          | cons x xs =>
            rw [Json.wfB] at hwf
            obtain ⟨cx, tailx, hx, hnws, h93, h125, h44⟩ := renderJson_head x
            obtain ⟨t, ht⟩ := joinComma_first (renderJson x) (renderItems xs)
            have hjc : joinComma (renderItems (x :: xs)) = renderJson x ++ t := by
              rw [renderItems]
              exact ht
            have hlen' : (joinComma (renderItems (x :: xs))).length + 1 < g := by
              rw [renderJson] at hlen
              simp only [List.length_cons, List.length_append, List.length_singleton] at hlen
              omega
            have hr : renderJson (Json.jarr (x :: xs)) =
                91 :: (joinComma (renderItems (x :: xs)) ++ [93]) := by
              rw [renderJson]
              simp
            rw [hr]
            rw [parseVal]
            simp only [List.cons_append, List.append_assoc, List.singleton_append,
              List.nil_append]
            rw [skipWs_cons 91 _ (by decide)]
            dsimp only []
            rw [if_neg (by decide : ¬(91 : Nat) = 34), if_pos (by decide : (91 : Nat) = 91)]
            have hshape : joinComma (renderItems (x :: xs)) ++ 93 :: rest
                = cx :: (tailx ++ (t ++ 93 :: rest)) := by
              rw [hjc, hx]
              simp
            rw [hshape, skipWs_cons cx _ hnws]
            simp only [if_neg h93]
            rw [← hshape]
            rw [ihB (x :: xs) (List.cons_ne_nil x xs) hwf rest hlen']
            simp
        | jobj fields =>
          cases fields with
          | nil =>
            have hr : renderJson (Json.jobj []) = [123, 125] := by
              rw [renderJson, renderFields]
              rfl
            rw [hr]
            rw [parseVal]
            simp only [List.cons_append, List.nil_append]
            rw [skipWs_cons 123 _ (by decide)]
            dsimp only []
            rw [if_neg (by decide : ¬(123 : Nat) = 34), if_neg (by decide : ¬(123 : Nat) = 91),
              if_pos (by decide : (123 : Nat) = 123)]
            rw [skipWs_cons 125 _ (by decide)]
            simp
          | cons kv fs =>
            obtain ⟨k, v⟩ := kv
            rw [Json.wfB] at hwf
            obtain ⟨t, ht⟩ :=
              joinComma_first (34 :: k ++ [34, 58] ++ renderJson v) (renderFields fs)
            have hjc : joinComma (renderFields ((k, v) :: fs))
                = (34 :: k ++ [34, 58] ++ renderJson v) ++ t := by
              rw [renderFields]
              exact ht
            have hlen' : (joinComma (renderFields ((k, v) :: fs))).length + 1 < g := by
              rw [renderJson] at hlen
              simp only [List.length_cons, List.length_append, List.length_singleton] at hlen
              omega
            have hr : renderJson (Json.jobj ((k, v) :: fs)) =
                123 :: (joinComma (renderFields ((k, v) :: fs)) ++ [125]) := by
              rw [renderJson]
              simp
            rw [hr]
            rw [parseVal]
            simp only [List.cons_append, List.append_assoc, List.singleton_append,
              List.nil_append]
            rw [skipWs_cons 123 _ (by decide)]
            dsimp only []
            rw [if_neg (by decide : ¬(123 : Nat) = 34), if_neg (by decide : ¬(123 : Nat) = 91),
              if_pos (by decide : (123 : Nat) = 123)]
            have hshape : joinComma (renderFields ((k, v) :: fs)) ++ 125 :: rest
                = 34 :: ((k ++ ([34, 58] ++ renderJson v)) ++ (t ++ 125 :: rest)) := by
              rw [hjc]
              simp
            rw [hshape, skipWs_cons 34 _ (by decide)]
            simp only [if_neg (show ¬(34 : Nat) = 125 by decide)]
            rw [← hshape]
            rw [ihC ((k, v) :: fs) (List.cons_ne_nil (k, v) fs) hwf rest hlen']
            simp
      · intro items hne hwf rest hlen
        cases items with
        | nil => exact absurd rfl hne
        | cons x xs =>
          rw [wfItems] at hwf
          simp only [Bool.and_eq_true] at hwf
          obtain ⟨hwx, hwxs⟩ := hwf
          cases xs with
          | nil =>
            have hjc : joinComma (renderItems [x]) = renderJson x := by
              rw [renderItems, renderItems]
              rfl
            rw [hjc] at hlen ⊢
            rw [parseItems]
            rw [ihA x hwx (93 :: rest) (numSafeB_closing rest).1 (by omega)]
            simp only [Option.bind]
            rw [skipWs_cons 93 _ (by decide)]
            dsimp only []
            rw [if_neg (by decide : ¬(93 : Nat) = 44), if_pos (by decide : (93 : Nat) = 93)]
          | cons y ys =>
            have hjoin : joinComma (renderItems (x :: y :: ys))
                = renderJson x ++ 44 :: joinComma (renderItems (y :: ys)) := by
              rw [renderItems, renderItems]
              rfl
            have hxlen : (renderJson x).length < g := by
              rw [hjoin] at hlen
              simp only [List.length_append, List.length_cons] at hlen
              omega
            have hlen2 : (joinComma (renderItems (y :: ys))).length + 1 < g := by
              obtain ⟨cx, tailx, hx, _, _, _, _⟩ := renderJson_head x
              rw [hjoin, hx] at hlen
              simp only [List.length_append, List.length_cons] at hlen
              omega
            rw [hjoin]
            rw [parseItems]
            simp only [List.append_assoc, List.cons_append]
            rw [ihA x hwx (44 :: (joinComma (renderItems (y :: ys)) ++ 93 :: rest))
              (numSafeB_closing _).2.2 hxlen]
            simp only [Option.bind]
            rw [skipWs_cons 44 _ (by decide)]
            dsimp only []
            rw [if_pos (by decide : (44 : Nat) = 44)]
            rw [ihB (y :: ys) (List.cons_ne_nil y ys) hwxs rest hlen2]
            rfl
      · intro fields hne hwf rest hlen
        cases fields with
        | nil => exact absurd rfl hne
        | cons kv fs =>
          obtain ⟨k, v⟩ := kv
          cases fs with
          | nil =>
            rw [wfFields] at hwf
            simp only [Bool.and_eq_true] at hwf
            obtain ⟨⟨hsafe, hwv⟩, hwfs⟩ := hwf
            have hjc : joinComma (renderFields [(k, v)])
                = 34 :: k ++ [34, 58] ++ renderJson v := by
              rw [renderFields, renderFields]
              rfl
            have hvlen : (renderJson v).length < g := by
              rw [hjc] at hlen
              simp only [List.length_append, List.length_cons] at hlen
              omega
            rw [hjc]
            rw [parseFields]
            simp only [List.cons_append, List.append_assoc, List.singleton_append,
              List.nil_append]
            rw [skipWs_cons 34 _ (by decide)]
            dsimp only []
            rw [if_pos (by decide : (34 : Nat) = 34)]
            rw [takeStr_append k _ hsafe]
            simp only [Option.bind]
            rw [skipWs_cons 58 _ (by decide)]
            dsimp only []
            rw [if_pos (by decide : (58 : Nat) = 58)]
            rw [ihA v hwv (125 :: rest) (numSafeB_closing rest).2.1 hvlen]
            simp only [Option.bind]
            rw [skipWs_cons 125 _ (by decide)]
            dsimp only []
            rw [if_neg (by decide : ¬(125 : Nat) = 44), if_pos (by decide : (125 : Nat) = 125)]
          | cons kv2 fs2 =>
            obtain ⟨k2, v2⟩ := kv2
            rw [wfFields] at hwf
            simp only [Bool.and_eq_true] at hwf
            obtain ⟨⟨hsafe, hwv⟩, hwfs⟩ := hwf
            have hjoin : joinComma (renderFields ((k, v) :: (k2, v2) :: fs2))
                = (34 :: k ++ [34, 58] ++ renderJson v) ++
                  44 :: joinComma (renderFields ((k2, v2) :: fs2)) := by
              rw [renderFields, renderFields]
              rfl
            have hvlen : (renderJson v).length < g := by
              rw [hjoin] at hlen
              simp only [List.length_append, List.length_cons] at hlen
              omega
            have hlen2 : (joinComma (renderFields ((k2, v2) :: fs2))).length + 1 < g := by
              rw [hjoin] at hlen
              simp only [List.length_append, List.length_cons] at hlen
              omega
            rw [hjoin]
            rw [parseFields]
            simp only [List.cons_append, List.append_assoc, List.singleton_append,
              List.nil_append]
            rw [skipWs_cons 34 _ (by decide)]
            dsimp only []
            rw [if_pos (by decide : (34 : Nat) = 34)]
            rw [takeStr_append k _ hsafe]
            simp only [Option.bind]
            rw [skipWs_cons 58 _ (by decide)]
            dsimp only []
            rw [if_pos (by decide : (58 : Nat) = 58)]
            rw [ihA v hwv
              (44 :: (joinComma (renderFields ((k2, v2) :: fs2)) ++ 125 :: rest))
              (numSafeB_closing _).2.2 hvlen]
            simp only [Option.bind]
            rw [skipWs_cons 44 _ (by decide)]
            dsimp only []
            rw [if_pos (by decide : (44 : Nat) = 44)]
            rw [ihC ((k2, v2) :: fs2) (List.cons_ne_nil (k2, v2) fs2) hwfs rest hlen2]
            rfl

/-- Members of a comma join are commas or members of the blocks. -/
theorem joinComma_mem (ls : List (List Nat)) (c : Nat) (hc : c ∈ joinComma ls) :
    c = 44 ∨ ∃ x ∈ ls, c ∈ x := by
  induction ls with
  | nil => simp [joinComma] at hc
  | cons x rest ih =>
    cases rest with
    | nil =>
      simp only [joinComma] at hc
      exact Or.inr ⟨x, by simp, hc⟩
    | cons y rest' =>
      rw [joinComma] at hc
      rcases List.mem_append.mp hc with hx | hy
      · exact Or.inr ⟨x, by simp, hx⟩
      · rcases List.mem_cons.mp hy with rfl | hmem
        · exact Or.inl rfl
        · rcases ih hmem with h44 | ⟨z, hz, hcz⟩
          · exact Or.inl h44
          · exact Or.inr ⟨z, by simp [hz], hcz⟩

/-- Blocks of `renderItems` are renderings of the items. -/
theorem renderItems_mem (items : List Json) (x : List Nat) (hx : x ∈ renderItems items) :
    ∃ j ∈ items, x = renderJson j := by
  induction items with
  | nil => simp [renderItems] at hx
  | cons j js ih =>
    rw [renderItems] at hx
    rcases List.mem_cons.mp hx with rfl | hmem
    · exact ⟨j, by simp, rfl⟩
    · obtain ⟨j', hj', rfl⟩ := ih hmem
      exact ⟨j', by simp [hj'], rfl⟩

/-- Blocks of `renderFields` are renderings of the members. -/
theorem renderFields_mem (fields : List (List Nat × Json)) (x : List Nat)
    (hx : x ∈ renderFields fields) :
    ∃ kv ∈ fields, x = 34 :: kv.1 ++ [34, 58] ++ renderJson kv.2 := by
  induction fields with
  | nil => simp [renderFields] at hx
  | cons kv fs ih =>
    obtain ⟨k, v⟩ := kv
    rw [renderFields] at hx
    rcases List.mem_cons.mp hx with rfl | hmem
    · exact ⟨(k, v), by simp, rfl⟩
    · obtain ⟨kv', hkv', rfl⟩ := ih hmem
      exact ⟨kv', by simp [hkv'], rfl⟩

/-- Elements of a well-formed item list are well-formed. -/
theorem wfItems_mem (items : List Json) (h : wfItems items = true) (j : Json)
    (hj : j ∈ items) : Json.wfB j = true := by
  induction items with
  | nil => simp at hj
  | cons x xs ih =>
    rw [wfItems] at h
    simp only [Bool.and_eq_true] at h
    rcases List.mem_cons.mp hj with rfl | hmem
    · exact h.1
    · exact ih h.2 hmem

/-- Members of a well-formed field list have safe keys and well-formed
values. -/
theorem wfFields_mem (fields : List (List Nat × Json)) (h : wfFields fields = true)
    (kv : List Nat × Json) (hkv : kv ∈ fields) :
    kv.1.all safeChar = true ∧ Json.wfB kv.2 = true := by
  induction fields with
  | nil => simp at hkv
  | cons x xs ih =>
    obtain ⟨k, v⟩ := x
    rw [wfFields] at h
    simp only [Bool.and_eq_true] at h
    rcases List.mem_cons.mp hkv with rfl | hmem
    · exact ⟨h.1.1, h.1.2⟩
    · exact ih h.2 hmem

/-- Rendered integers are ASCII. -/
theorem renderInt_ascii (n : Int) : ∀ c ∈ renderInt n, c < 128 := by
  intro c hc
  unfold renderInt at hc
  have hdig : ∀ c ∈ renderNat n.natAbs, c < 128 := by
    intro c' hc'
    have := renderNat_digits n.natAbs c' hc'
    simp only [isDigitCode, Bool.and_eq_true, decide_eq_true_eq] at this
    omega
  split at hc
  · rcases List.mem_cons.mp hc with rfl | hmem
    · omega
    · exact hdig c hmem
  · exact hdig c hc

/-- Rendered well-formed JSON is ASCII. -/
theorem renderJson_ascii (j : Json) (hwf : Json.wfB j = true) :
    ∀ c ∈ renderJson j, c < 128 := by
  have H : ∀ (n : Nat) (j : Json), sizeOf j ≤ n → Json.wfB j = true →
      ∀ c ∈ renderJson j, c < 128 := by
    intro n
    induction n with
    | zero =>
      intro j hsz
      exact absurd hsz (by cases j <;> simp)
    | succ n ih =>
      intro j hsz hwf c hc
      cases j with
      | jnull =>
        have hr : renderJson Json.jnull = [110, 117, 108, 108] := by
          rw [renderJson]
          rfl
        rw [hr] at hc
        exact (by decide : ∀ x ∈ [110, 117, 108, 108], x < 128) c hc
      | jbool b =>
        cases b with
        | true =>
          have hr : renderJson (Json.jbool true) = [116, 114, 117, 101] := by
            rw [renderJson]
            rfl
          rw [hr] at hc
          exact (by decide : ∀ x ∈ [116, 114, 117, 101], x < 128) c hc
        | false =>
          have hr : renderJson (Json.jbool false) = [102, 97, 108, 115, 101] := by
            rw [renderJson]
            rfl
          rw [hr] at hc
          exact (by decide : ∀ x ∈ [102, 97, 108, 115, 101], x < 128) c hc
      | jnum m =>
        rw [renderJson] at hc
        exact renderInt_ascii m c hc
      | jstr s =>
        rw [Json.wfB] at hwf
        rw [renderJson] at hc
        rcases List.mem_cons.mp hc with rfl | hmem
        · omega
        · rcases List.mem_append.mp hmem with hs | h34
          · have := List.all_eq_true.mp hwf c hs
            simp only [safeChar, Bool.and_eq_true, decide_eq_true_eq] at this
            omega
          · simp only [List.mem_singleton] at h34
            omega
      | jarr items =>
        rw [Json.wfB] at hwf
        rw [renderJson] at hc
        rcases List.mem_cons.mp hc with rfl | hmem
        · omega
        · rcases List.mem_append.mp hmem with hjc | h93
          · rcases joinComma_mem _ c hjc with rfl | ⟨x, hx, hcx⟩
            · omega
            · obtain ⟨j', hj', rfl⟩ := renderItems_mem items x hx
              have hszj : sizeOf j' ≤ n := by
                have h1 : sizeOf j' < sizeOf items := List.sizeOf_lt_of_mem hj'
                have h2 : sizeOf (Json.jarr items) = 1 + sizeOf items := by simp
                omega
              exact ih j' hszj (wfItems_mem items hwf j' hj') c hcx
          · simp only [List.mem_singleton] at h93
            omega
      | jobj fields =>
        rw [Json.wfB] at hwf
        rw [renderJson] at hc
        rcases List.mem_cons.mp hc with rfl | hmem
        · omega
        · rcases List.mem_append.mp hmem with hjc | h125
          · rcases joinComma_mem _ c hjc with rfl | ⟨x, hx, hcx⟩
            · omega
            · obtain ⟨kv, hkv, rfl⟩ := renderFields_mem fields x hx
              obtain ⟨hsafe, hwv⟩ := wfFields_mem fields hwf kv hkv
              rcases List.mem_cons.mp hcx with rfl | hmem2
              · omega
              · rcases List.mem_append.mp hmem2 with hkk | hrv
                · rcases List.mem_append.mp hkk with hk | h3458
                  · have := List.all_eq_true.mp hsafe c hk
                    simp only [safeChar, Bool.and_eq_true, decide_eq_true_eq] at this
                    omega
                  · exact (by decide : ∀ x ∈ [34, 58], x < 128) c h3458
                · have hszv : sizeOf kv.2 ≤ n := by
                    have h1 : sizeOf kv < sizeOf fields := List.sizeOf_lt_of_mem hkv
                    have h2 : sizeOf (Json.jobj fields) = 1 + sizeOf fields := by simp
                    have h3 : sizeOf kv.2 < sizeOf kv := by
                      obtain ⟨k, v⟩ := kv
                      simp only [Prod.mk.sizeOf_spec]
                      omega
                    omega
                  exact ih kv.2 hszv hwv c hrv
          · simp only [List.mem_singleton] at h125
            omega
  exact H (sizeOf j) j le_rfl hwf

/-- `JSON.parse` inverts `JSON.stringify` on well-formed values. -/
theorem jsonParse_renderJson (j : Json) (hwf : Json.wfB j = true) :
    jsonParse (renderJson j) = some j := by
  unfold jsonParse
  have h := (parse_render_main ((renderJson j).length + 1)).1 j hwf [] rfl (by omega)
  rw [List.append_nil] at h
  rw [h]
  rfl

/-- Points render to well-formed JSON. -/
theorem wfB_point (p : Point) : (Point.toJson p).wfB = true := by
  rw [Point.toJson, Json.wfB]
  rw [wfFields, wfFields, wfFields]
  simp [Json.wfB, strBytes, safeChar]

/-- Recorded inputs render to well-formed JSON. -/
theorem wfB_input (i : ReplayInput) : (ReplayInput.toJson i).wfB = true := by
  rw [ReplayInput.toJson, Json.wfB]
  rw [wfFields, wfFields, wfFields]
  cases i.direction <;> simp [Json.wfB, Dir.name, strBytes, safeChar]

/-- Mapped item lists of well-formed values are well-formed. -/
theorem wfItems_map_point (l : List Point) : wfItems (l.map Point.toJson) = true := by
  induction l with
  | nil => rfl
  | cons p ps ih =>
    simp only [List.map_cons]
    rw [wfItems]
    simp [wfB_point p, ih]

theorem wfItems_map_input (l : List ReplayInput) :
    wfItems (l.map ReplayInput.toJson) = true := by
  induction l with
  | nil => rfl
  | cons i is ih =>
    simp only [List.map_cons]
    rw [wfItems]
    simp [wfB_input i, ih]

/-- The JSON image of a replay record is well-formed. -/
theorem wfB_toJson (d : ReplayData) : (ReplayData.toJson d).wfB = true := by
  rw [ReplayData.toJson, Json.wfB]
  rw [wfFields, wfFields, wfFields, wfFields, wfFields, wfFields, wfFields, wfFields,
    wfFields, wfFields, wfFields]
  simp only [Bool.and_eq_true, List.all_eq_true]
  refine ⟨⟨by decide, by simp [Json.wfB]⟩, ⟨by decide, by simp [Json.wfB]⟩,
    ⟨by decide, by simp [Json.wfB]⟩, ⟨by decide, by simp [Json.wfB]⟩,
    ⟨by decide, ?_⟩, ⟨by decide, wfB_point d.initialDirection⟩,
    ⟨by decide, ?_⟩, ⟨by decide, by simp [Json.wfB]⟩,
    ⟨by decide, by simp [Json.wfB]⟩, ⟨by decide, by simp [Json.wfB]⟩, trivial⟩
  · rw [Json.wfB]
    exact wfItems_map_point d.initialSnake
  · rw [Json.wfB]
    exact wfItems_map_input d.inputs

/-- The JSON image of a replay record passes `importReplay` validation. -/
theorem validReplayShape_toJson (d : ReplayData) :
    validReplayShape (ReplayData.toJson d) = true := rfl

/-- C4: for every replay log, `importReplay(exportReplay(log))` succeeds
and returns the log field-for-field: the imported JSON value is exactly
the JSON image of the original record (every field listed in
`ReplayData.toJson` is preserved). -/
theorem replay_export_import_roundtrip (d : ReplayData) :
    ReplayStorage.importReplay (ReplayStorage.exportReplay d) = some d.toJson := by
  unfold ReplayStorage.exportReplay ReplayStorage.importReplay
  have hascii : ∀ c ∈ renderJson d.toJson, c < 128 :=
    renderJson_ascii d.toJson (wfB_toJson d)
  have henc : ∀ c ∈ encodeURIComponent (renderJson d.toJson), c < 256 := fun c hc => by
    have := encodeURIComponent_ascii (renderJson d.toJson) hascii c hc
    omega
  rw [atob_btoa _ henc]
  dsimp only []
  rw [decodeURIComponent_encode _ hascii]
  dsimp only []
  rw [jsonParse_renderJson d.toJson (wfB_toJson d)]
  dsimp only []
  rw [if_pos (validReplayShape_toJson d)]

/-- Extraction of the four structural checks from a passed validation. -/
theorem validReplayShape_extract (j : Json) (h : validReplayShape j = true) :
    (∃ n, j.getField (strBytes "version") = some (Json.jnum n)) ∧
    (∃ n, j.getField (strBytes "seed") = some (Json.jnum n)) ∧
    (∃ xs, j.getField (strBytes "inputs") = some (Json.jarr xs)) ∧
    (∃ xs, j.getField (strBytes "initialSnake") = some (Json.jarr xs)) := by
  unfold validReplayShape at h
  simp only [Bool.and_eq_true] at h
  obtain ⟨⟨⟨h1, h2⟩, h3⟩, h4⟩ := h
  refine ⟨?_, ?_, ?_, ?_⟩
  · cases hv : j.getField (strBytes "version") with
    | none =>
      rw [hv] at h1
      simp at h1
    | some v =>
      rw [hv] at h1
      cases v with
      | jnum n => exact ⟨n, rfl⟩
      | jnull => simp [Json.isNum] at h1
      | jbool b => simp [Json.isNum] at h1
      | jstr s => simp [Json.isNum] at h1
      | jarr l => simp [Json.isNum] at h1
      | jobj l => simp [Json.isNum] at h1
  · cases hv : j.getField (strBytes "seed") with
    | none =>
      rw [hv] at h2
      simp at h2
    | some v =>
      rw [hv] at h2
      cases v with
      | jnum n => exact ⟨n, rfl⟩
      | jnull => simp [Json.isNum] at h2
      | jbool b => simp [Json.isNum] at h2
      | jstr s => simp [Json.isNum] at h2
      | jarr l => simp [Json.isNum] at h2
      | jobj l => simp [Json.isNum] at h2
  · cases hv : j.getField (strBytes "inputs") with
    | none =>
      rw [hv] at h3
      simp at h3
    | some v =>
      rw [hv] at h3
      cases v with
      | jarr l => exact ⟨l, rfl⟩
      | jnull => simp [Json.isArr] at h3
      | jbool b => simp [Json.isArr] at h3
      | jstr s => simp [Json.isArr] at h3
      | jnum n => simp [Json.isArr] at h3
      | jobj l => simp [Json.isArr] at h3
  · cases hv : j.getField (strBytes "initialSnake") with
    | none =>
      rw [hv] at h4
      simp at h4
    | some v =>
      rw [hv] at h4
      cases v with
      | jarr l => exact ⟨l, rfl⟩
      | jnull => simp [Json.isArr] at h4
      | jbool b => simp [Json.isArr] at h4
      | jstr s => simp [Json.isArr] at h4
      | jnum n => simp [Json.isArr] at h4
      | jobj l => simp [Json.isArr] at h4

/-- C5: `importReplay` is total (the model returns `none` where the source
catches a thrown decode or parse error) and returns either `none` or a
JSON value that passes the structural validation: a numeric `version`, a
numeric `seed`, and array-valued `inputs` and `initialSnake`. -/
theorem importReplay_total_validated (s : List Nat) :
    ReplayStorage.importReplay s = none ∨
    ∃ j, ReplayStorage.importReplay s = some j ∧
      (∃ n, j.getField (strBytes "version") = some (Json.jnum n)) ∧
      (∃ n, j.getField (strBytes "seed") = some (Json.jnum n)) ∧
      (∃ xs, j.getField (strBytes "inputs") = some (Json.jarr xs)) ∧
      (∃ xs, j.getField (strBytes "initialSnake") = some (Json.jarr xs)) := by
  unfold ReplayStorage.importReplay
  cases hatob : atob s with
  | none => exact Or.inl rfl
  | some u =>
    dsimp only []
    cases hdec : decodeURIComponent u with
    | none => exact Or.inl rfl
    | some json =>
      dsimp only []
      cases hparse : jsonParse json with
      | none => exact Or.inl rfl
      | some data =>
        dsimp only []
        by_cases hvalid : validReplayShape data = true
        · obtain ⟨e1, e2, e3, e4⟩ := validReplayShape_extract data hvalid
          exact Or.inr ⟨data, by rw [if_pos hvalid], e1, e2, e3, e4⟩
        · rw [if_neg hvalid]
          exact Or.inl rfl

/-- Every neighbor is at Manhattan distance one. -/
theorem manhattan_neighbor (a b : Point) (h : b ∈ AutoPilot.getNeighbors a) :
    manhattan a b = 1 := by
  simp only [AutoPilot.getNeighbors, List.mem_cons, List.not_mem_nil, or_false] at h
  rcases h with rfl | rfl | rfl | rfl <;> simp [manhattan]

/-- The triangle inequality for the Manhattan distance. -/
theorem manhattan_triangle (a b c : Point) :
    manhattan a c ≤ manhattan a b + manhattan b c := by
  simp only [manhattan]
  omega

/-- Any walkable walk is at least as long as the Manhattan distance it
covers. -/
theorem chain_length_ge_manhattan (W H : Int) (grid : Point → Bool) :
    ∀ (w : List Point) (start t : Point), List.Chain (stepOK W H grid) start w →
      w.getLastD start = t → manhattan start t ≤ w.length := by
  intro w
  induction w with
  | nil =>
    intro start t _ hlast
    simp only [List.getLastD_nil] at hlast
    subst hlast
    simp [manhattan]
  | cons b w' ih =>
    intro start t hchain hlast
    rw [List.chain_cons] at hchain
    obtain ⟨hstep, hchain'⟩ := hchain
    rw [List.getLastD_cons] at hlast
    have h1 : manhattan b t ≤ w'.length := ih b t hchain' hlast
    have h2 : manhattan start b = 1 := manhattan_neighbor start b hstep.1
    have h3 := manhattan_triangle start b t
    simp only [List.length_cons]
    omega

/-- Consecutive cells of a walkable walk are single steps. -/
theorem chain_cellAt (W H : Int) (grid : Point → Bool) :
    ∀ (w : List Point) (start : Point), List.Chain (stepOK W H grid) start w →
      ∀ i, i < w.length → stepOK W H grid (cellAt start w i) (cellAt start w (i + 1)) := by
  intro w
  induction w with
  | nil =>
    intro start _ i hi
    simp at hi
  | cons b w' ih =>
    intro start hchain i hi
    rw [List.chain_cons] at hchain
    obtain ⟨hstep, hchain'⟩ := hchain
    cases i with
    | zero =>
      simp only [cellAt, List.getD_cons_zero, List.getD_cons_succ]
      exact hstep
    | succ i' =>
      have hstep2 := ih b hchain' i' (by simp only [List.length_cons] at hi; omega)
      have hi1 : i' < (b :: w').length := by
        simp only [List.length_cons] at hi ⊢
        omega
      have hi2 : i' < w'.length := by
        simp only [List.length_cons] at hi
        omega
      have e1 : cellAt start (b :: w') (i' + 1) = cellAt b w' i' := by
        simp only [cellAt, List.getD_cons_succ]
        rw [List.getD_eq_getElem _ _ hi1, List.getD_eq_getElem _ _ hi1]
      have e2 : cellAt start (b :: w') (i' + 1 + 1) = cellAt b w' (i' + 1) := by
        simp only [cellAt, List.getD_cons_succ]
        rw [List.getD_eq_getElem _ _ hi2, List.getD_eq_getElem _ _ hi2]
      rw [e1, e2]
      exact hstep2

/-- Extending a walkable walk by one walkable step. -/
theorem chain_append_one (W H : Int) (grid : Point → Bool) :
    ∀ (l : List Point) (start x : Point), List.Chain (stepOK W H grid) start l →
      stepOK W H grid (l.getLastD start) x →
      List.Chain (stepOK W H grid) start (l ++ [x]) ∧ (l ++ [x]).getLastD start = x := by
  intro l
  induction l with
  | nil =>
    intro start x _ hstep
    simp only [List.getLastD_nil] at hstep
    simp only [List.nil_append]
    exact ⟨List.chain_cons.mpr ⟨hstep, List.Chain.nil⟩, rfl⟩
  | cons b l' ih =>
    intro start x hchain hstep
    rw [List.chain_cons] at hchain
    obtain ⟨hsb, hchain'⟩ := hchain
    rw [List.getLastD_cons] at hstep
    obtain ⟨hch, hlast⟩ := ih b x hchain' hstep
    constructor
    · rw [List.cons_append, List.chain_cons]
      exact ⟨hsb, hch⟩
    · rw [List.cons_append, List.getLastD_cons]
      exact hlast

/-- The last element of a list split around an element. -/
theorem getLastD_append_cons (l1 : List Point) (b : Point) (l2 : List Point) (d : Point) :
    (l1 ++ b :: l2).getLastD d = l2.getLastD b := by
  induction l1 generalizing d with
  | nil =>
    rw [List.nil_append]
    exact List.getLastD_cons d b l2
  | cons a l1' ih =>
    rw [List.cons_append, List.getLastD_cons]
    exact ih a

/-- Loop erasure at the start: any walkable walk to the target yields one
that never revisits the start and is no longer. -/
theorem chain_erase_start (W H : Int) (grid : Point → Bool) (start target : Point) :
    ∀ (w : List Point), List.Chain (stepOK W H grid) start w →
      w.getLastD start = target →
      ∃ w', TChain W H grid start target w' ∧ w'.length ≤ w.length := by
  have main : ∀ (n : Nat) (w : List Point), w.length ≤ n →
      List.Chain (stepOK W H grid) start w → w.getLastD start = target →
      ∃ w', TChain W H grid start target w' ∧ w'.length ≤ w.length := by
    intro n
    induction n with
    | zero =>
      intro w hlen hchain hlast
      have : w = [] := List.length_eq_zero.mp (Nat.le_zero.mp hlen)
      subst this
      exact ⟨[], ⟨hchain, hlast, by simp⟩, le_rfl⟩
    | succ n ih =>
      intro w hlen hchain hlast
      by_cases hmem : start ∈ w
      · obtain ⟨l1, l2, rfl⟩ := List.append_of_mem hmem
        have hchain2 : List.Chain (stepOK W H grid) start l2 :=
          (List.chain_split.mp hchain).2
        have hlast2 : l2.getLastD start = target := by
          rw [getLastD_append_cons] at hlast
          exact hlast
        have hlen2 : l2.length ≤ n := by
          simp only [List.length_append, List.length_cons] at hlen
          omega
        obtain ⟨w', hw', hle⟩ := ih l2 hlen2 hchain2 hlast2
        refine ⟨w', hw', ?_⟩
        simp only [List.length_append, List.length_cons]
        omega
      · exact ⟨w, ⟨hchain, hlast, hmem⟩, le_rfl⟩
  intro w
  exact main w.length w le_rfl

/-- In-bounds cells are grid cells. -/
theorem mem_gridCells (W H : Int) (p : Point) (h : AutoPilot.isValid W H p = true) :
    p ∈ gridCells W H := by
  obtain ⟨x, y⟩ := p
  simp only [AutoPilot.isValid, Bool.and_eq_true, decide_eq_true_eq] at h
  obtain ⟨⟨⟨hx0, hxW⟩, hy0⟩, hyH⟩ := h
  have hmem : ({ x := Int.ofNat x.toNat, y := Int.ofNat y.toNat } : Point) ∈ gridCells W H := by
    unfold gridCells
    exact List.mem_flatMap.mpr ⟨x.toNat, List.mem_range.mpr (by omega),
      List.mem_map.mpr ⟨y.toNat, List.mem_range.mpr (by omega), rfl⟩⟩
  have hp : ({ x := Int.ofNat x.toNat, y := Int.ofNat y.toNat } : Point) = { x := x, y := y } := by
    simp only [Point.mk.injEq, Int.ofNat_eq_coe]
    constructor <;> omega
  exact hp ▸ hmem

/-- Removing a present, unvisited cell strictly shrinks the free count
over any cell list: monotonicity part. -/
theorem filter_notMem_mono (v : List Point) (p : Point) :
    ∀ l : List Point,
      (l.filter fun c => !(decide (c ∈ p :: v))).length ≤
      (l.filter fun c => !(decide (c ∈ v))).length := by
  intro l
  induction l with
  | nil => simp
  | cons a l' ih =>
    by_cases hav : a ∈ p :: v
    · have e1 : (a :: l').filter (fun c => !(decide (c ∈ p :: v)))
          = l'.filter (fun c => !(decide (c ∈ p :: v))) := by
        simp [List.filter_cons, hav]
        all_goals exact fun hne => (List.mem_cons.mp hav).resolve_left hne
      by_cases hav2 : a ∈ v
      · have e2 : (a :: l').filter (fun c => !(decide (c ∈ v)))
            = l'.filter (fun c => !(decide (c ∈ v))) := by
          simp [List.filter_cons, hav2]
        rw [e1, e2]
        exact ih
      · have e2 : (a :: l').filter (fun c => !(decide (c ∈ v)))
            = a :: l'.filter (fun c => !(decide (c ∈ v))) := by
          simp [List.filter_cons, hav2]
        rw [e1, e2]
        exact Nat.le_succ_of_le ih
    · have hav2 : a ∉ v := fun hv => hav (by simp [hv])
      have e1 : (a :: l').filter (fun c => !(decide (c ∈ p :: v)))
          = a :: l'.filter (fun c => !(decide (c ∈ p :: v))) := by
        simp only [List.filter_cons]
        rw [if_pos (by simpa using hav)]
      have e2 : (a :: l').filter (fun c => !(decide (c ∈ v)))
          = a :: l'.filter (fun c => !(decide (c ∈ v))) := by
        simp [List.filter_cons, hav2]
      rw [e1, e2]
      exact Nat.succ_le_succ ih

/-- Removing a present, unvisited cell strictly shrinks the free count. -/
theorem filter_notMem_cons_lt (v : List Point) (p : Point) (hpv : p ∉ v) :
    ∀ l : List Point, p ∈ l →
      (l.filter fun c => !(decide (c ∈ p :: v))).length <
      (l.filter fun c => !(decide (c ∈ v))).length := by
  intro l
  induction l with
  | nil => simp
  | cons a l' ih =>
    intro hp
    by_cases hap : a = p
    · subst hap
      have e1 : (a :: l').filter (fun c => !(decide (c ∈ a :: v)))
          = l'.filter (fun c => !(decide (c ∈ a :: v))) := by
        simp [List.filter_cons]
      have e2 : (a :: l').filter (fun c => !(decide (c ∈ v)))
          = a :: l'.filter (fun c => !(decide (c ∈ v))) := by
        simp [List.filter_cons, hpv]
      rw [e1, e2]
      exact Nat.lt_succ_of_le (filter_notMem_mono v a l')
    · have hp' : p ∈ l' := by
        rcases List.mem_cons.mp hp with h | h
        · exact absurd h.symm hap
        · exact h
      by_cases hav : a ∈ v
      · have e1 : (a :: l').filter (fun c => !(decide (c ∈ p :: v)))
            = l'.filter (fun c => !(decide (c ∈ p :: v))) := by
          simp [List.filter_cons, hav]
        have e2 : (a :: l').filter (fun c => !(decide (c ∈ v)))
            = l'.filter (fun c => !(decide (c ∈ v))) := by
          simp [List.filter_cons, hav]
        rw [e1, e2]
        exact ih hp'
      · have e1 : (a :: l').filter (fun c => !(decide (c ∈ p :: v)))
            = a :: l'.filter (fun c => !(decide (c ∈ p :: v))) := by
          simp only [List.filter_cons]
          rw [if_pos]
          simp only [Bool.not_eq_true', decide_eq_false_iff_not, List.mem_cons, not_or]
          exact ⟨hap, hav⟩
        have e2 : (a :: l').filter (fun c => !(decide (c ∈ v)))
            = a :: l'.filter (fun c => !(decide (c ∈ v))) := by
          simp [List.filter_cons, hav]
        rw [e1, e2]
        exact Nat.succ_lt_succ (ih hp')

/-- Visiting a fresh in-bounds cell strictly shrinks the free count. -/
theorem freeCount_cons_lt (W H : Int) (v : List Point) (p : Point)
    (hin : p ∈ gridCells W H) (hnot : p ∉ v) :
    freeCount W H (p :: v) < freeCount W H v :=
  filter_notMem_cons_lt v p hnot (gridCells W H) hin

/-- The free count never exceeds the number of grid cells. -/
theorem freeCount_le (W H : Int) (v : List Point) :
    freeCount W H v ≤ (gridCells W H).length :=
  List.length_filter_le _ _

/-- `bfsPush` on a passing neighbor: append to the queue, mark visited. -/
theorem bfsPush_pos (W H : Int) (grid : Point → Bool) (path : List Point)
    (q0 : List (Point × List Point)) (v0 : List Point) (n : Point)
    (h : (AutoPilot.isValid W H n && grid n && !(decide (n ∈ v0))) = true) :
    bfsPush W H grid path (q0, v0) n = (q0 ++ [(n, path ++ [n])], n :: v0) := by
  unfold bfsPush
  rw [if_pos h]

/-- `bfsPush` on a failing neighbor: no change. -/
theorem bfsPush_neg (W H : Int) (grid : Point → Bool) (path : List Point)
    (q0 : List (Point × List Point)) (v0 : List Point) (n : Point)
    (h : ¬((AutoPilot.isValid W H n && grid n && !(decide (n ∈ v0))) = true)) :
    bfsPush W H grid path (q0, v0) n = (q0, v0) := by
  unfold bfsPush
  rw [if_neg h]

/-- Anatomy of the neighbor fold of one `bfs` iteration: the queue grows
by a block of new entries, each recording `path` extended by its own
passing cell, and a cell is visited afterwards iff it was visited before
or heads a new entry. -/
theorem foldl_bfsPush_spec (W H : Int) (grid : Point → Bool) (path : List Point) :
    ∀ (ns : List Point) (q0 : List (Point × List Point)) (v0 : List Point),
    ∃ new : List (Point × List Point),
      (ns.foldl (bfsPush W H grid path) (q0, v0)).1 = q0 ++ new ∧
      (∀ e ∈ new, e.2 = path ++ [e.1] ∧ e.1 ∈ ns ∧ AutoPilot.isValid W H e.1 = true ∧
        grid e.1 = true ∧ e.1 ∉ v0) ∧
      (∀ x : Point, x ∈ (ns.foldl (bfsPush W H grid path) (q0, v0)).2 ↔
        x ∈ v0 ∨ ∃ e ∈ new, e.1 = x) := by
  intro ns
  induction ns with
  | nil =>
    intro q0 v0
    exact ⟨[], by simp, by simp, by simp⟩
  | cons n ns ih =>
    intro q0 v0
    rw [List.foldl_cons]
    by_cases hcond : (AutoPilot.isValid W H n && grid n && !(decide (n ∈ v0))) = true
    · rw [bfsPush_pos W H grid path q0 v0 n hcond]
      obtain ⟨new', h1, h2, h3⟩ := ih (q0 ++ [(n, path ++ [n])]) (n :: v0)
      simp only [Bool.and_eq_true, Bool.not_eq_true', decide_eq_false_iff_not] at hcond
      refine ⟨(n, path ++ [n]) :: new', ?_, ?_, ?_⟩
      · rw [h1, List.append_assoc, List.singleton_append]
      · intro e he
        rcases List.mem_cons.mp he with rfl | he'
        · exact ⟨rfl, by simp, hcond.1.1, hcond.1.2, hcond.2⟩
        · obtain ⟨hp, hmem, hv, hg, hnv⟩ := h2 e he'
          refine ⟨hp, by simp [hmem], hv, hg, fun hev0 => hnv (by simp [hev0])⟩
      · intro x
        rw [h3 x]
        constructor
        · rintro (hx | ⟨e, he, rfl⟩)
          · rcases List.mem_cons.mp hx with rfl | hxv
            · exact Or.inr ⟨(x, path ++ [x]), by simp, rfl⟩
            · exact Or.inl hxv
          · exact Or.inr ⟨e, by simp [he], rfl⟩
        · rintro (hx | ⟨e, he, rfl⟩)
          · exact Or.inl (by simp [hx])
          · rcases List.mem_cons.mp he with rfl | he'
            · exact Or.inl (by simp)
            · exact Or.inr ⟨e, he', rfl⟩
    · rw [bfsPush_neg W H grid path q0 v0 n hcond]
      obtain ⟨new', h1, h2, h3⟩ := ih q0 v0
      refine ⟨new', h1, ?_, h3⟩
      intro e he
      obtain ⟨hp, hmem, hv, hg, hnv⟩ := h2 e he
      exact ⟨hp, by simp [hmem], hv, hg, hnv⟩

/-- A valid walkable neighbor is visited after the neighbor fold. -/
theorem foldl_bfsPush_mem_visited (W H : Int) (grid : Point → Bool) (path : List Point) :
    ∀ (ns : List Point) (q0 : List (Point × List Point)) (v0 : List Point) (n : Point),
      n ∈ ns → AutoPilot.isValid W H n = true → grid n = true →
      n ∈ (ns.foldl (bfsPush W H grid path) (q0, v0)).2 := by
  intro ns
  induction ns with
  | nil =>
    intro q0 v0 n hn _ _
    simp at hn
  | cons m ns ih =>
    intro q0 v0 n hn hv hg
    rw [List.foldl_cons]
    rcases List.mem_cons.mp hn with rfl | hn'
    · by_cases hcond : (AutoPilot.isValid W H n && grid n && !(decide (n ∈ v0))) = true
      · rw [bfsPush_pos W H grid path q0 v0 n hcond]
        obtain ⟨new, _, _, h3⟩ :=
          foldl_bfsPush_spec W H grid path ns (q0 ++ [(n, path ++ [n])]) (n :: v0)
        exact (h3 n).mpr (Or.inl (List.mem_cons_self n v0))
      · rw [bfsPush_neg W H grid path q0 v0 n hcond]
        have hnv0 : n ∈ v0 := by
          by_contra hnv
          exact hcond (by simp [hv, hg, hnv])
        obtain ⟨new, _, _, h3⟩ := foldl_bfsPush_spec W H grid path ns q0 v0
        exact (h3 n).mpr (Or.inl hnv0)
    · exact ih (bfsPush W H grid path (q0, v0) m).1 (bfsPush W H grid path (q0, v0) m).2
        n hn' hv hg

/-- A valid, walkable, so-far-unvisited neighbor ends up queued by the
neighbor fold, recording the popped path extended by itself. -/
theorem foldl_bfsPush_complete (W H : Int) (grid : Point → Bool) (path : List Point)
    (ns : List Point) (q0 : List (Point × List Point)) (v0 : List Point) (n : Point)
    (hn : n ∈ ns) (hv : AutoPilot.isValid W H n = true) (hg : grid n = true)
    (hnv : n ∉ v0) :
    (n, path ++ [n]) ∈ (ns.foldl (bfsPush W H grid path) (q0, v0)).1 := by
  obtain ⟨new, h1, h2, h3⟩ := foldl_bfsPush_spec W H grid path ns q0 v0
  have hvis := foldl_bfsPush_mem_visited W H grid path ns q0 v0 n hn hv hg
  rcases (h3 n).mp hvis with hv0 | ⟨e, he, hex⟩
  · exact absurd hv0 hnv
  · obtain ⟨hp, _, _, _, _⟩ := h2 e he
    have : e = (n, path ++ [n]) := by
      obtain ⟨e1, e2⟩ := e
      simp only at hex
      subst hex
      simp only at hp
      rw [hp]
    rw [h1]
    exact List.mem_append.mpr (Or.inr (this ▸ he))

/-- The fold preserves the fuel bound: each push adds one queue entry but
claims one fresh grid cell. -/
theorem foldl_bfsPush_inv (W H : Int) (grid : Point → Bool) (path : List Point) :
    ∀ (ns : List Point) (q0 : List (Point × List Point)) (v0 : List Point) (fuel : Nat),
      q0.length + freeCount W H v0 ≤ fuel →
      (ns.foldl (bfsPush W H grid path) (q0, v0)).1.length +
        freeCount W H (ns.foldl (bfsPush W H grid path) (q0, v0)).2 ≤ fuel := by
  intro ns
  induction ns with
  | nil =>
    intro q0 v0 fuel h
    simpa using h
  | cons n ns ih =>
    intro q0 v0 fuel h
    rw [List.foldl_cons]
    by_cases hcond : (AutoPilot.isValid W H n && grid n && !(decide (n ∈ v0))) = true
    · rw [bfsPush_pos W H grid path q0 v0 n hcond]
      apply ih
      simp only [Bool.and_eq_true, Bool.not_eq_true', decide_eq_false_iff_not] at hcond
      have hfree := freeCount_cons_lt W H v0 n
        (mem_gridCells W H n hcond.1.1) hcond.2
      simp only [List.length_append, List.length_cons, List.length_nil]
      omega
    · rw [bfsPush_neg W H grid path q0 v0 n hcond]
      exact ih q0 v0 fuel h

/-- The walk cell at index `w.length` is the walk's endpoint. -/
theorem cellAt_length (w : List Point) : ∀ start, cellAt start w w.length = w.getLastD start := by
  induction w with
  | nil =>
    intro start
    rfl
  | cons b w' ih =>
    intro start
    have ih' := ih b
    have hlt : w'.length < (b :: w').length := by simp
    simp only [cellAt, List.length_cons, List.getD_cons_succ, List.getLastD_cons] at ih' ⊢
    rw [List.getD_eq_getElem _ _ hlt] at ih' ⊢
    exact ih'

/-- Every walk cell after the start lies on the walk. -/
theorem cellAt_mem (start : Point) (w : List Point) :
    ∀ j, 1 ≤ j → j ≤ w.length → cellAt start w j ∈ w := by
  intro j hj1 hjw
  obtain ⟨j', rfl⟩ : ∃ j', j = j' + 1 := ⟨j - 1, by omega⟩
  have hlt : j' < w.length := by omega
  simp only [cellAt, List.getD_cons_succ]
  rw [List.getD_eq_getElem _ _ hlt]
  exact List.getElem_mem hlt

/-- Restoring the frontier invariant: from a queued witness at step `k`
and queued entries for every visited later walk cell, a witness index with
all later cells unvisited can be chosen. -/
theorem wit_restore (start : Point) (q1 : List (Point × List Point)) (v1 : List Point)
    (w : List Point) :
    ∀ (n k : Nat), w.length - k ≤ n → k ≤ w.length →
      (∃ qp, (cellAt start w k, qp) ∈ q1 ∧ qp.length ≤ k) →
      (∀ j, k < j → j ≤ w.length → cellAt start w j ∈ v1 →
        ∃ qp, (cellAt start w j, qp) ∈ q1 ∧ qp.length ≤ j) →
      WitInv start q1 v1 w := by
  intro n
  induction n with
  | zero =>
    intro k hnk hk hentry _
    obtain ⟨qp, hq, hl⟩ := hentry
    refine ⟨k, hk, qp, hq, hl, ?_⟩
    intro j hj1 hj2
    exact absurd hj1 (by omega)
  | succ n ih =>
    intro k hnk hk hentry hrest
    by_cases hex : ∃ j, k < j ∧ j ≤ w.length ∧ cellAt start w j ∈ v1
    · obtain ⟨j0, hj0k, hj0w, hj0v⟩ := hex
      apply ih j0 (by omega) hj0w (hrest j0 hj0k hj0w hj0v)
      intro j hj1 hj2 hjv
      exact hrest j (by omega) hj2 hjv
    · push_neg at hex
      obtain ⟨qp, hq, hl⟩ := hentry
      exact ⟨k, hk, qp, hq, hl, fun j hj1 hj2 => hex j hj1 hj2⟩

/-- Correctness of the `bfs` loop: given the queue invariants and a
competing walk `w`, the loop returns a walkable path to the target no
longer than `w`, without exhausting its fuel. -/
theorem bfsAux_correct (W H : Int) (grid : Point → Bool) (start target : Point)
    (w : List Point) (hw : TChain W H grid start target w) :
    ∀ (fuel : Nat) (queue : List (Point × List Point)) (visited : List Point),
      (∀ e ∈ queue, EntryOK W H grid start e) →
      QInv queue →
      queue.length + freeCount W H visited ≤ fuel →
      WitInv start queue visited w →
      ∃ res, AutoPilot.bfsAux W H grid target fuel queue visited = some res ∧
        List.Chain (stepOK W H grid) start res ∧ res.getLastD start = target ∧
        res.length ≤ w.length := by
  intro fuel
  induction fuel with
  | zero =>
    intro queue visited hE hQ hF hW
    obtain ⟨i, hi, qp, hq, _, _⟩ := hW
    have hne : queue ≠ [] := List.ne_nil_of_mem hq
    have hpos : 0 < queue.length := List.length_pos.mpr hne
    omega
  | succ fuel ih =>
    intro queue visited hE hQ hF hW
    cases queue with
    | nil =>
      obtain ⟨i, hi, qp, hq, _, _⟩ := hW
      simp at hq
    | cons front queue' =>
      obtain ⟨pos, path⟩ := front
      obtain ⟨hPair, hW1⟩ := hQ
      have hPairHead : ∀ e ∈ queue', path.length ≤ e.2.length :=
        (List.pairwise_cons.mp hPair).1
      have hPairTail : queue'.Pairwise (fun a b => a.2.length ≤ b.2.length) :=
        (List.pairwise_cons.mp hPair).2
      obtain ⟨hChain, hLast⟩ := hE (pos, path) (List.mem_cons_self _ _)
      by_cases hpt : pos = target
      · refine ⟨path, ?_, hChain, ?_, ?_⟩
        · show AutoPilot.bfsAux W H grid target (fuel + 1) ((pos, path) :: queue') visited
            = some path
          simp only [AutoPilot.bfsAux]
          rw [if_pos hpt]
        · rw [hLast]
          exact hpt
        · obtain ⟨i, hi, qp, hq, hlen, _⟩ := hW
          rcases List.mem_cons.mp hq with heq | hq'
          · rw [Prod.mk.injEq] at heq
            have hqp : qp.length = path.length := by rw [heq.2]
            omega
          · have := hPairHead (cellAt start w i, qp) hq'
            simp only at this
            omega
      · have hstep : AutoPilot.bfsAux W H grid target (fuel + 1) ((pos, path) :: queue') visited
            = AutoPilot.bfsAux W H grid target fuel
              ((AutoPilot.getNeighbors pos).foldl (bfsPush W H grid path) (queue', visited)).1
              ((AutoPilot.getNeighbors pos).foldl (bfsPush W H grid path) (queue', visited)).2 := by
          simp only [AutoPilot.bfsAux]
          rw [if_neg hpt]
        obtain ⟨new, h1, h2, h3⟩ :=
          foldl_bfsPush_spec W H grid path (AutoPilot.getNeighbors pos) queue' visited
        have hNewLen : ∀ e ∈ new, e.2.length = path.length + 1 := by
          intro e he
          rw [(h2 e he).1]
          simp
        have hE' : ∀ e ∈ ((AutoPilot.getNeighbors pos).foldl (bfsPush W H grid path)
            (queue', visited)).1, EntryOK W H grid start e := by
          intro e he
          rw [h1] at he
          rcases List.mem_append.mp he with he' | he'
          · exact hE e (List.mem_cons_of_mem _ he')
          · obtain ⟨hp, hmem, hv, hg, _⟩ := h2 e he'
            have hstepOK : stepOK W H grid (path.getLastD start) e.1 := by
              rw [hLast]
              exact ⟨hmem, hv, hg⟩
            have hext := chain_append_one W H grid path start e.1 hChain hstepOK
            constructor
            · rw [hp]
              exact hext.1
            · rw [hp]
              exact hext.2
        have hQ' : QInv ((AutoPilot.getNeighbors pos).foldl (bfsPush W H grid path)
            (queue', visited)).1 := by
          rw [h1]
          constructor
          · rw [List.pairwise_append]
            refine ⟨hPairTail, ?_, ?_⟩
            · apply List.pairwise_of_forall_mem_list
              intro a ha b hb
              rw [hNewLen a ha, hNewLen b hb]
            · intro a ha b hb
              have hub := hW1 a (List.mem_cons_of_mem _ ha) (pos, path) (List.mem_cons_self _ _)
              simp only at hub
              rw [hNewLen b hb]
              omega
          · intro a ha b hb
            have hA : a.2.length ≤ path.length + 1 := by
              rcases List.mem_append.mp ha with ha' | ha'
              · have := hW1 a (List.mem_cons_of_mem _ ha') (pos, path) (List.mem_cons_self _ _)
                simpa using this
              · rw [hNewLen a ha']
            have hB : path.length ≤ b.2.length := by
              rcases List.mem_append.mp hb with hb' | hb'
              · exact hPairHead b hb'
              · rw [hNewLen b hb']
                omega
            omega
        have hF' : ((AutoPilot.getNeighbors pos).foldl (bfsPush W H grid path)
              (queue', visited)).1.length +
            freeCount W H ((AutoPilot.getNeighbors pos).foldl (bfsPush W H grid path)
              (queue', visited)).2 ≤ fuel := by
          apply foldl_bfsPush_inv
          simp only [List.length_cons] at hF
          omega
        have hW' : WitInv start ((AutoPilot.getNeighbors pos).foldl (bfsPush W H grid path)
            (queue', visited)).1
            ((AutoPilot.getNeighbors pos).foldl (bfsPush W H grid path)
            (queue', visited)).2 w := by
          obtain ⟨i, hi, qp, hq, hlen, hunv⟩ := hW
          rcases List.mem_cons.mp hq with heq | hq'
          · rw [Prod.mk.injEq] at heq
            obtain ⟨hc, hqp⟩ := heq
            rw [hqp] at hlen
            have hiw : i < w.length := by
              rcases Nat.lt_or_ge i w.length with h | h
              · exact h
              · exfalso
                have : i = w.length := by omega
                rw [this, cellAt_length] at hc
                rw [hw.2.1] at hc
                exact hpt hc.symm
            have hsucc := chain_cellAt W H grid w start hw.1 i hiw
            rw [hc] at hsucc
            have hnv : cellAt start w (i + 1) ∉ visited :=
              hunv (i + 1) (by omega) (by omega)
            have hentry := foldl_bfsPush_complete W H grid path (AutoPilot.getNeighbors pos)
              queue' visited (cellAt start w (i + 1)) hsucc.1 hsucc.2.1 hsucc.2.2 hnv
            apply wit_restore start _ _ w w.length (i + 1) (by omega) (by omega)
            · refine ⟨path ++ [cellAt start w (i + 1)], hentry, ?_⟩
              simp only [List.length_append, List.length_cons, List.length_nil]
              omega
            · intro j hj1 hj2 hjv
              rcases (h3 _).mp hjv with hv' | ⟨e, he, hex⟩
              · exact absurd hv' (hunv j (by omega) hj2)
              · obtain ⟨e1, e2⟩ := e
                simp only at hex
                subst hex
                refine ⟨e2, ?_, ?_⟩
                · rw [h1]
                  exact List.mem_append.mpr (Or.inr he)
                · have := hNewLen _ he
                  simp only at this
                  omega
          · apply wit_restore start _ _ w w.length i (by omega) hi
            · refine ⟨qp, ?_, hlen⟩
              rw [h1]
              exact List.mem_append.mpr (Or.inl hq')
            · intro j hj1 hj2 hjv
              rcases (h3 _).mp hjv with hv' | ⟨e, he, hex⟩
              · exact absurd hv' (hunv j hj1 hj2)
              · obtain ⟨e1, e2⟩ := e
                simp only at hex
                subst hex
                refine ⟨e2, ?_, ?_⟩
                · rw [h1]
                  exact List.mem_append.mpr (Or.inr he)
                · have hl := hNewLen _ he
                  simp only at hl
                  have := hPairHead (cellAt start w i, qp) hq'
                  simp only at this
                  omega
        obtain ⟨res, hres, hrc, hrl, hrlen⟩ := ih _ _ hE' hQ' hF' hW'
        refine ⟨res, ?_, hrc, hrl, hrlen⟩
        rw [hstep]
        exact hres

/-- The grid holds `W * H` cells. -/
theorem gridCells_length (W H : Int) : (gridCells W H).length = W.toNat * H.toNat := by
  simp only [gridCells, List.length_flatMap]
  have hc : (List.length ∘ fun i : Nat =>
      List.map (fun j : Nat => ({ x := Int.ofNat i, y := Int.ofNat j } : Point))
        (List.range H.toNat)) = fun _ : Nat => H.toNat := by
    funext i
    simp
  rw [hc, List.map_const', List.sum_replicate]
  simp [smul_eq_mul, Nat.mul_comm]

/-- `bfs(start, target)` beats any competing walkable walk: it returns a
walkable path to the target at most as long. -/
theorem bfs_beats_walk (W H : Int) (grid : Point → Bool) (start target : Point)
    (w : List Point) (hw : TChain W H grid start target w) :
    ∃ res, AutoPilot.bfs W H grid start target = some res ∧
      List.Chain (stepOK W H grid) start res ∧ res.getLastD start = target ∧
      res.length ≤ w.length := by
  apply bfsAux_correct W H grid start target w hw
  · intro e he
    rcases List.mem_cons.mp he with rfl | he'
    · exact ⟨List.Chain.nil, rfl⟩
    · simp at he'
  · constructor
    · exact List.pairwise_singleton _ _
    · intro a ha b hb
      rcases List.mem_cons.mp ha with rfl | ha'
      · rcases List.mem_cons.mp hb with rfl | hb'
        · omega
        · simp at hb'
      · simp at ha'
  · have h1 := freeCount_le W H [start]
    rw [gridCells_length] at h1
    simp only [List.length_cons, List.length_nil]
    omega
  · refine ⟨0, Nat.zero_le _, [], List.mem_cons_self _ _, Nat.le_refl _, ?_⟩
    intro j hj1 hj2
    have hmem := cellAt_mem start w j hj1 hj2
    intro hvis
    rcases List.mem_cons.mp hvis with heq | hnil
    · rw [heq] at hmem
      exact hw.2.2 hmem
    · simp at hnil

/-- C9: on an open grid with no obstacles, whenever the snake body does
not block a straight route — witnessed by a walkable walk from head to
food of length exactly their Manhattan distance — the path `bfs` returns
has length equal to that Manhattan distance; and in the concrete scenario
with head (2,2), body (1,2),(0,2) and food (5,2) on an empty 10-by-10
board, `getNextMove` returns right ((1,0)). -/
theorem bfs_shortest_path_and_scenario :
    (∀ (W H : Int) (segments : List Point) (food : Point) (w : List Point),
      TChain W H (AutoPilot.createGrid segments [])
        (segments.headD { x := 0, y := 0 }) food w →
      w.length = manhattan (segments.headD { x := 0, y := 0 }) food →
      ∃ res, AutoPilot.bfs W H (AutoPilot.createGrid segments [])
          (segments.headD { x := 0, y := 0 }) food = some res ∧
        res.length = manhattan (segments.headD { x := 0, y := 0 }) food) ∧
    AutoPilot.getNextMove 10 10
      [{ x := 2, y := 2 }, { x := 1, y := 2 }, { x := 0, y := 2 }]
      { x := 5, y := 2 } [] = { x := 1, y := 0 } := by
  constructor
  · intro W H segments food w hw hlen
    obtain ⟨res, hres, hchain, hlast, hle⟩ :=
      bfs_beats_walk W H (AutoPilot.createGrid segments [])
        (segments.headD { x := 0, y := 0 }) food w hw
    refine ⟨res, hres, ?_⟩
    have hge := chain_length_ge_manhattan W H (AutoPilot.createGrid segments []) res
      (segments.headD { x := 0, y := 0 }) food hchain hlast
    omega
  · decide

/-- Witness for C9: the straight walk (3,2),(4,2),(5,2) is walkable and
has length 3, the Manhattan distance from the head (2,2) to the food
(5,2), so `bfs` returns a path of that exact length in the concrete
scenario. -/
theorem bfs_shortest_path_and_scenario_witness :
    ∃ res, AutoPilot.bfs 10 10
        (AutoPilot.createGrid
          [{ x := 2, y := 2 }, { x := 1, y := 2 }, { x := 0, y := 2 }] [])
        { x := 2, y := 2 } { x := 5, y := 2 } = some res ∧
      res.length = manhattan { x := 2, y := 2 } { x := 5, y := 2 } :=
  bfs_shortest_path_and_scenario.1 10 10
    [{ x := 2, y := 2 }, { x := 1, y := 2 }, { x := 0, y := 2 }] { x := 5, y := 2 }
    [{ x := 3, y := 2 }, { x := 4, y := 2 }, { x := 5, y := 2 }]
    ⟨List.Chain.cons (by decide) (List.Chain.cons (by decide)
      (List.Chain.cons (by decide) List.Chain.nil)), by decide, by decide⟩ (by decide)
